import Mathlib

/-!
# Load test engine of `go-cli/cmd/main.go`

A shallow embedding of the `Run` closure of `loadTestCmd` (from the line
`color.Cyan("Starting load test ...")` on, i.e. once the API URL guard has
passed): the dispatcher goroutine, the request goroutines, the three
channels `results`, `errors` and `sem`, and the statistics loop.

* `time.Duration` and Go `int` are 64-bit signed integers; they are embedded
  as `Int`, with `wrap64` applied where the source adds durations.
* A Go `error` is embedded as its message text.
* Goroutine interleaving is a step function `step` taking the goroutine to
  run next; `Reachable` is the set of states some interleaving reaches.
* A send on a buffered channel is possible when the buffer has room, a
  receive when it holds an item; a send on a channel of capacity 0 needs a
  receiver standing at its receive (`Action.handoff`); a send on a closed
  channel is a panic. `make` panics on a capacity that is negative or whose
  buffer exceeds the runtime's bound, a parameter of the run; running out of
  physical memory below that bound is not modelled.
-/

namespace LoadTest

/-! ## Durations and 64-bit arithmetic -/

/-- Two's complement wrap-around of a signed 64-bit integer. -/
def wrap64 (x : Int) : Int := (x + 2 ^ 63) % 2 ^ 64 - 2 ^ 63

/-- Nanoseconds in `time.Hour`. -/
def hour : Int := 3600000000000

/-- Nanoseconds in `time.Millisecond`. -/
def millisecond : Int := 1000000

/-! ## One request -/

/-- What `http.Post` gave back for one request, together with the
`elapsed := time.Since(reqStart)` measured around it. -/
inductive TransportResult where
  /-- `err != nil`, with the error's message. -/
  | err (msg : String)
  /-- `err == nil`, with `resp.StatusCode` and `elapsed`. -/
  | resp (statusCode : Int) (elapsed : Int)
  deriving DecidableEq, Repr

/-- The value a request goroutine sends, and the channel it sends it on:
`success` goes to `results`, `failure` goes to `errors`. -/
inductive Outcome where
  | success (latency : Int)
  | failure (cause : String)
  deriving DecidableEq, Repr

/-- Text of `fmt.Errorf("status %d", code)`. -/
def statusError (code : Int) : String := "status " ++ toString code

/-- The three exit paths of the goroutine body after `http.Post` returned. -/
def taskOutcome : TransportResult → Outcome
  | .err msg => .failure msg
  | .resp statusCode elapsed =>
      if statusCode ≥ 400 then .failure (statusError statusCode)
      else .success elapsed

/-- Whether an outcome went to the `errors` channel. -/
def Outcome.isFailure : Outcome → Bool
  | .success _ => false
  | .failure _ => true

/-! ## Statistics -/

/-- The variables `total`, `count`, `min`, `max` of the statistics loop. -/
structure Acc where
  total : Int
  count : Nat
  min : Int
  max : Int
  deriving DecidableEq, Repr

/-- The declarations `var total time.Duration`, `var count int` and
`var min, max time.Duration = time.Hour, 0`. -/
def Acc.init : Acc := { total := 0, count := 0, min := hour, max := 0 }

/-- One iteration of `for d := range results`. -/
def accStep (a : Acc) (d : Int) : Acc :=
  { total := wrap64 (a.total + d)
    count := a.count + 1
    min := if d < a.min then d else a.min
    max := if d > a.max then d else a.max }

/-- The loop `for d := range results` over the drained channel contents. -/
def reduceLoop (results : List Int) : Acc := results.foldl accStep Acc.init

/-- The lines printed under `if count > 0`. `Requests/sec` is the float
quotient `float64(count)/totalTime.Seconds()`; its two operands are kept. -/
structure LatencyLines where
  avg : Int
  min : Int
  max : Int
  rpsCount : Nat
  rpsTime : Int
  deriving DecidableEq, Repr

/-- Everything the run prints after `=== Load Test Results ===`. -/
structure Report where
  total : Int
  succeeded : Nat
  failed : Nat
  totalTime : Int
  latency : Option LatencyLines
  deriving DecidableEq, Repr

/-- The statistics block: the loop, `errorCount := len(errors)` and the
prints. `requests` is the flag value and `totalTime` is `time.Since(start)`. -/
def mkReport (requests totalTime : Int) (results : List Int) (errors : List String) : Report :=
  let a := reduceLoop results
  { total := requests
    succeeded := a.count
    failed := errors.length
    totalTime := totalTime
    latency :=
      if a.count > 0 then
        some { avg := Int.tdiv a.total (a.count : Int)
               min := a.min
               max := a.max
               rpsCount := a.count
               rpsTime := totalTime }
      else none }

/-- A request goroutine's send: the outcome is appended to its channel. -/
def deliver (chans : List Int × List String) : Outcome → List Int × List String
  | .success d => (chans.1 ++ [d], chans.2)
  | .failure e => (chans.1, chans.2 ++ [e])

/-- Channel contents after the given outcomes were sent in this order. -/
def deliverAll (outcomes : List Outcome) : List Int × List String :=
  outcomes.foldl deliver ([], [])

/-- The report printed when the goroutines sent these outcomes in this order. -/
def aggregate (requests totalTime : Int) (outcomes : List Outcome) : Report :=
  mkReport requests totalTime (deliverAll outcomes).1 (deliverAll outcomes).2

/-- Latency of a success, for `List.filterMap`. -/
def Outcome.latency? : Outcome → Option Int
  | .success d => some d
  | .failure _ => none

/-- Cause of a failure, for `List.filterMap`. -/
def Outcome.cause? : Outcome → Option String
  | .success _ => none
  | .failure e => some e

/-! ## The run as a step function -/

/-- The flags and the environment of one run. -/
structure Config where
  /-- Flag `--requests`. -/
  requests : Int
  /-- Flag `--concurrency`. -/
  concurrency : Int
  /-- What `http.Post` returns, and the elapsed time, for goroutine `n`. -/
  transport : Nat → TransportResult
  /-- The value of `time.Since(start)` when the statistics are printed. -/
  totalTime : Int
  /-- The Go runtime's bound on the bytes of a channel buffer: the value of
  `maxAlloc - hchanSize` in `runtime.makechan`, which depends on the platform. -/
  maxChanBytes : Nat

/-- Bytes of a `time.Duration`, the element of `results`. -/
def durationSize : Nat := 8

/-- Bytes of an `error`, the element of `errors`: an interface value is two
words. -/
def errorSize : Nat := 16

/-- Bytes of a `struct{}`, the element of `sem`. -/
def emptyStructSize : Nat := 0

/-- Whether `make(chan T, size)` panics with "makechan: size out of range":
`runtime.makechan` multiplies the element size by `size` and panics when the
product overflows a `uintptr`, when it exceeds the bound on a channel buffer,
or when `size` is negative. -/
def makechanPanics (cfg : Config) (elemSize : Nat) (size : Int) : Bool :=
  decide (2 ^ 64 ≤ (elemSize : Int) * size) ||
    decide ((cfg.maxChanBytes : Int) < (elemSize : Int) * size) ||
    decide (size < 0)

/-- Whether one of the three `make(chan ...)` of the run panics: `results`
and `errors` have `requests` elements, `sem` has `concurrency` elements. -/
def startPanics (cfg : Config) : Bool :=
  makechanPanics cfg durationSize cfg.requests ||
    makechanPanics cfg errorSize cfg.requests ||
    makechanPanics cfg emptyStructSize cfg.concurrency

/-- Capacity of `results` and of `errors`: `make(chan _, requests)`. -/
def Config.outCap (cfg : Config) : Nat := cfg.requests.toNat

/-- Capacity of `sem`: `make(chan struct{}, concurrency)`. -/
def Config.semCap (cfg : Config) : Nat := cfg.concurrency.toNat

/-- Where a request goroutine `go func(n int)` stands. -/
inductive TaskPc where
  /-- Before or inside `http.Post`. -/
  | post
  /-- `http.Post` returned; at the send on `errors` or `results`. -/
  | report
  /-- Outcome sent; at the deferred `<-sem`. -/
  | release
  /-- The goroutine returned. -/
  | exited
  deriving DecidableEq, Repr

/-- Where the dispatcher (the goroutine running `Run`) stands. -/
inductive MainPc where
  /-- Before the three `make(chan ...)`. -/
  | start
  /-- First loop, at the test `i < requests` and the send `sem <- struct{}{}`. -/
  | dispatch (i : Nat)
  /-- First loop, slot acquired, at `go func(n int){...}(i)`. -/
  | launch (i : Nat)
  /-- Second loop, at the test `i < concurrency` and the send `sem <- struct{}{}`. -/
  | wait (i : Nat)
  /-- At `close(results); close(errors)`. -/
  | closing
  /-- Channels closed; at the statistics block. -/
  | reducing
  /-- `Run` returned after printing the report. -/
  | done (r : Report)
  /-- The process died of a runtime panic. -/
  | panicked
  deriving DecidableEq, Repr

/-- A state of the run. -/
structure State where
  pc : MainPc
  /-- Number of tokens buffered in `sem`: `len(sem)`. -/
  sem : Nat
  /-- Goroutine `n` is the one launched with argument `n`. -/
  tasks : List TaskPc
  /-- Buffered contents of `results`, oldest first. -/
  results : List Int
  /-- Buffered contents of `errors`, oldest first. -/
  errors : List String
  deriving DecidableEq, Repr

/-- The state when `Run` starts. -/
def State.init : State :=
  { pc := .start, sem := 0, tasks := [], results := [], errors := [] }

/-- Which goroutine moves next. -/
inductive Action where
  /-- The dispatcher. -/
  | main
  /-- Request goroutine `n`. -/
  | task (n : Nat)
  /-- The dispatcher's send on an unbuffered `sem` meets goroutine `n`'s
  deferred receive. -/
  | handoff (n : Nat)
  deriving DecidableEq, Repr

/-- One move of the dispatcher; `none` when it is blocked or has ended. -/
def stepMain (cfg : Config) (s : State) : Option State :=
  match s.pc with
  | .start =>
      if startPanics cfg then some { s with pc := .panicked }
      else some { s with pc := .dispatch 0 }
  | .dispatch i =>
      if (i : Int) < cfg.requests then
        if s.sem < cfg.semCap then some { s with pc := .launch i, sem := s.sem + 1 }
        else none
      else some { s with pc := .wait 0 }
  | .launch i => some { s with pc := .dispatch (i + 1), tasks := s.tasks ++ [.post] }
  | .wait i =>
      if (i : Int) < cfg.concurrency then
        if s.sem < cfg.semCap then some { s with pc := .wait (i + 1), sem := s.sem + 1 }
        else none
      else some { s with pc := .closing }
  | .closing => some { s with pc := .reducing }
  | .reducing => some { s with pc := .done (mkReport cfg.requests cfg.totalTime s.results s.errors) }
  | .done _ => none
  | .panicked => none

/-- Whether the process has ended (`Run` returned, or a panic). -/
def MainPc.ended : MainPc → Bool
  | .done _ => true
  | .panicked => true
  | _ => false

/-- One move of request goroutine `n`; `none` when it is blocked, has
returned, was never launched, or the process has ended. -/
def stepTask (cfg : Config) (s : State) (n : Nat) : Option State :=
  if s.pc.ended then none
  else
    match s.tasks[n]? with
    | none => none
    | some .post => some { s with tasks := s.tasks.set n .report }
    | some .report =>
        if s.pc = .reducing then some { s with pc := .panicked }
        else
          match taskOutcome (cfg.transport n) with
          | .success d =>
              if s.results.length < cfg.outCap then
                some { s with results := s.results ++ [d], tasks := s.tasks.set n .release }
              else none
          | .failure e =>
              if s.errors.length < cfg.outCap then
                some { s with errors := s.errors ++ [e], tasks := s.tasks.set n .release }
              else none
    | some .release =>
        if s.sem > 0 then some { s with sem := s.sem - 1, tasks := s.tasks.set n .exited }
        else none
    | some .exited => none

/-- A send of the dispatcher on `sem` received at once by goroutine `n`,
which is what a send on a channel of capacity 0 needs. -/
def stepHandoff (cfg : Config) (s : State) (n : Nat) : Option State :=
  if cfg.semCap = 0 ∧ s.tasks[n]? = some .release then
    match s.pc with
    | .dispatch i =>
        if (i : Int) < cfg.requests then
          some { s with pc := .launch i, tasks := s.tasks.set n .exited }
        else none
    | .wait i =>
        if (i : Int) < cfg.concurrency then
          some { s with pc := .wait (i + 1), tasks := s.tasks.set n .exited }
        else none
    | _ => none
  else none

/-- One step of the run. -/
def step (cfg : Config) (s : State) : Action → Option State
  | .main => stepMain cfg s
  | .task n => stepTask cfg s n
  | .handoff n => stepHandoff cfg s n

/-- Runs a schedule; `none` when one of its moves is not possible. -/
def runSchedule (cfg : Config) : List Action → State → Option State
  | [], s => some s
  | a :: as, s =>
      match step cfg s a with
      | none => none
      | some s' => runSchedule cfg as s'

/-- States some interleaving reaches. -/
inductive Reachable (cfg : Config) : State → Prop where
  | init : Reachable cfg State.init
  | step {s s' : State} (a : Action) : Reachable cfg s → step cfg s a = some s' →
      Reachable cfg s'

/-- States reachable from a given state. -/
inductive ReachableFrom (cfg : Config) (s : State) : State → Prop where
  | refl : ReachableFrom cfg s s
  | step {t t' : State} (a : Action) : ReachableFrom cfg s t → step cfg t a = some t' →
      ReachableFrom cfg s t'

/-- A launched goroutine holds its slot until its deferred `<-sem` is done. -/
def TaskPc.holdsSlot : TaskPc → Bool
  | .exited => false
  | _ => true

/-- Whether the goroutine has sent its outcome. -/
def TaskPc.hasReported : TaskPc → Bool
  | .release => true
  | .exited => true
  | _ => false

/-- Whether the goroutine has returned. -/
def TaskPc.hasExited : TaskPc → Bool
  | .exited => true
  | _ => false

/-- Moves the goroutine still has to make. -/
def TaskPc.stepsLeft : TaskPc → Nat
  | .post => 3
  | .report => 2
  | .release => 1
  | .exited => 0

/-- Number of launched goroutines that have not yet received from `sem`. -/
def holders (ts : List TaskPc) : Nat := ts.countP TaskPc.holdsSlot

/-- Number of goroutines that have sent their outcome. -/
def reported (ts : List TaskPc) : Nat := ts.countP TaskPc.hasReported

/-- Number of goroutines that have returned. -/
def exitedCount (ts : List TaskPc) : Nat := ts.countP TaskPc.hasExited

/-- Number of sends on `sem` the dispatcher has completed. -/
def sentOf (cfg : Config) : MainPc → Nat
  | .start => 0
  | .dispatch i => i
  | .launch i => i + 1
  | .wait i => cfg.outCap + i
  | .closing => cfg.outCap + cfg.semCap
  | .reducing => cfg.outCap + cfg.semCap
  | .done _ => cfg.outCap + cfg.semCap
  | .panicked => 0

/-- Number of goroutines the dispatcher has launched. -/
def launchedOf (cfg : Config) : MainPc → Nat
  | .start => 0
  | .dispatch i => i
  | .launch i => i
  | .wait _ => cfg.outCap
  | .closing => cfg.outCap
  | .reducing => cfg.outCap
  | .done _ => cfg.outCap
  | .panicked => 0

/-- Loop indices stay within their loops. -/
def inLoop (cfg : Config) : MainPc → Prop
  | .dispatch i => i ≤ cfg.outCap
  | .launch i => i < cfg.outCap
  | .wait i => i ≤ cfg.semCap
  | _ => True

/-- Moves the dispatcher still has to make, plus three for each goroutine it
has yet to launch. -/
def mainLeft (cfg : Config) : MainPc → Nat
  | .start => 5 * cfg.outCap + cfg.semCap + 5
  | .dispatch i => 5 * (cfg.outCap - i) + cfg.semCap + 4
  | .launch i => 5 * (cfg.outCap - (i + 1)) + cfg.semCap + 8
  | .wait i => (cfg.semCap - i) + 3
  | .closing => 2
  | .reducing => 1
  | .done _ => 0
  | .panicked => 0

/-- Bound on the number of moves left in any interleaving. -/
def movesLeft (cfg : Config) (s : State) : Nat :=
  mainLeft cfg s.pc + (s.tasks.map TaskPc.stepsLeft).sum

/-- The invariant of the run. -/
structure Inv (cfg : Config) (s : State) : Prop where
  flags : s.pc ≠ .start → s.pc ≠ .panicked → 0 ≤ cfg.requests ∧ 0 ≤ cfg.concurrency
  sem_le : s.sem ≤ cfg.semCap
  tokens : s.sem + exitedCount s.tasks = sentOf cfg s.pc
  launched : s.tasks.length = launchedOf cfg s.pc
  loop : inLoop cfg s.pc
  outcomes : s.results.length + s.errors.length = reported s.tasks
  printed : ∀ r, s.pc = .done r → r = mkReport cfg.requests cfg.totalTime s.results s.errors
  crashed : s.pc = .panicked → startPanics cfg = true

/-- Outcomes of the goroutines that have sent theirs, in goroutine order;
the first goroutine of the list has number `n`. -/
def sentOutcomes (cfg : Config) : Nat → List TaskPc → List Outcome
  | _, [] => []
  | n, t :: ts =>
      if t.hasReported then taskOutcome (cfg.transport n) :: sentOutcomes cfg (n + 1) ts
      else sentOutcomes cfg (n + 1) ts

/-- The outcomes buffered in the two channels. -/
def State.collected (s : State) : List Outcome :=
  s.results.map Outcome.success ++ s.errors.map Outcome.failure

/-- The outcome of every request of the run, in goroutine order. -/
def allOutcomes (cfg : Config) : List Outcome :=
  (List.range cfg.outCap).map (fun n => taskOutcome (cfg.transport n))

/-- A sample configuration: every request answers 200 after 10ms; the bound
on a channel buffer is the one of linux/amd64, 2^48 - 96 bytes. -/
def cfgOk (requests concurrency : Int) : Config :=
  { requests := requests, concurrency := concurrency,
    transport := fun _ => .resp 200 (10 * millisecond), totalTime := 1000000000,
    maxChanBytes := 281474976710560 }

/-- A sample configuration: the requests numbered 0, 3, 6, 9 answer 500,
the others 200, all after 10ms. -/
def cfgSomeFail (requests concurrency : Int) : Config :=
  { requests := requests, concurrency := concurrency,
    transport := fun n =>
      if n % 3 = 0 then .resp 500 (10 * millisecond) else .resp 200 (10 * millisecond),
    totalTime := 1000000000,
    maxChanBytes := 281474976710560 }

/-- A sample configuration: one request, answered 200 after two hours
(`http.Post` uses the default client, which has no timeout). -/
def cfgSlow : Config :=
  { requests := 1, concurrency := 1,
    transport := fun _ => .resp 200 (2 * hour), totalTime := 1000000000,
    maxChanBytes := 281474976710560 }

/-! ## Lemmas on 64-bit arithmetic and the statistics loop -/

/-- The three channels are created exactly when both flags are non-negative
and the buffer of `errors`, 16 bytes for each request, is within the bound. -/
theorem startPanics_eq_false_iff (cfg : Config) :
    startPanics cfg = false ↔
      0 ≤ cfg.requests ∧ 0 ≤ cfg.concurrency ∧ 16 * cfg.requests < 2 ^ 64 ∧
        16 * cfg.requests ≤ cfg.maxChanBytes := by
  simp only [startPanics, makechanPanics, durationSize, errorSize, emptyStructSize,
    Bool.or_eq_false_iff, decide_eq_false_iff_not, Nat.cast_ofNat, Nat.cast_zero]
  constructor
  · rintro ⟨⟨⟨⟨h1, h2⟩, h3⟩, ⟨h4, h5⟩, h6⟩, ⟨h7, h8⟩, h9⟩
    refine ⟨?_, ?_, ?_, ?_⟩ <;> omega
  · rintro ⟨h1, h2, h3, h4⟩
    refine ⟨⟨⟨⟨?_, ?_⟩, ?_⟩, ⟨?_, ?_⟩, ?_⟩, ⟨?_, ?_⟩, ?_⟩ <;> omega

/-- One of the three `make(chan ...)` panics exactly when a flag is negative
or the buffer of `errors` is out of range. -/
theorem startPanics_eq_true_iff (cfg : Config) :
    startPanics cfg = true ↔
      cfg.requests < 0 ∨ cfg.concurrency < 0 ∨ 2 ^ 64 ≤ 16 * cfg.requests ∨
        (cfg.maxChanBytes : Int) < 16 * cfg.requests := by
  have h := startPanics_eq_false_iff cfg
  cases hs : startPanics cfg
  · have := h.1 hs
    simp only [Bool.false_eq_true, false_iff]
    omega
  · simp only [true_iff]
    by_contra hcon
    have := h.2 (by omega)
    simp [hs] at this
theorem wrap64_of_inRange {x : Int} (h1 : -2 ^ 63 ≤ x) (h2 : x < 2 ^ 63) : wrap64 x = x := by
  unfold wrap64
  rw [Int.emod_eq_of_lt (by omega) (by omega)]
  omega

theorem wrap64_add_left (a b : Int) : wrap64 (wrap64 a + b) = wrap64 (a + b) := by
  unfold wrap64
  have h : (a + 2 ^ 63) % 2 ^ 64 - 2 ^ 63 + b + 2 ^ 63 = (a + 2 ^ 63) % 2 ^ 64 + b := by ring
  rw [h, Int.emod_add_emod]
  congr 2
  ring

theorem accStep_comm (a : Acc) (x y : Int) :
    accStep (accStep a x) y = accStep (accStep a y) x := by
  simp only [accStep, wrap64_add_left, Acc.mk.injEq]
  refine ⟨?_, trivial, ?_, ?_⟩
  · congr 1; ring
  · split_ifs <;> omega
  · split_ifs <;> omega

theorem foldl_accStep_count (l : List Int) (a : Acc) :
    (l.foldl accStep a).count = a.count + l.length := by
  induction l generalizing a with
  | nil => simp
  | cons d l ih => simp [ih, accStep]; omega

theorem foldl_accStep_total (l : List Int) (a : Acc) :
    wrap64 (l.foldl accStep a).total = wrap64 (a.total + l.sum) := by
  induction l generalizing a with
  | nil => simp
  | cons d l ih =>
    simp only [List.foldl_cons, ih, List.sum_cons, accStep, wrap64_add_left]
    congr 1; ring

theorem foldl_accStep_total_fix (l : List Int) (a : Acc) (ha : wrap64 a.total = a.total) :
    wrap64 (l.foldl accStep a).total = (l.foldl accStep a).total := by
  induction l generalizing a with
  | nil => simpa using ha
  | cons d l ih =>
    simp only [List.foldl_cons]
    apply ih
    simp only [accStep]
    have := wrap64_add_left (a.total + d) 0
    simpa using this

theorem reduceLoop_count (l : List Int) : (reduceLoop l).count = l.length := by
  simp [reduceLoop, foldl_accStep_count, Acc.init]

theorem reduceLoop_total (l : List Int) : (reduceLoop l).total = wrap64 l.sum := by
  have h1 := foldl_accStep_total l Acc.init
  have h2 := foldl_accStep_total_fix l Acc.init (by decide)
  rw [h2] at h1
  simpa [reduceLoop, Acc.init] using h1

theorem foldl_accStep_min_le (l : List Int) (a : Acc) :
    (l.foldl accStep a).min ≤ a.min ∧ ∀ d ∈ l, (l.foldl accStep a).min ≤ d := by
  induction l generalizing a with
  | nil => simp
  | cons x l ih =>
    obtain ⟨h1, h2⟩ := ih (accStep a x)
    have hx : (accStep a x).min ≤ a.min ∧ (accStep a x).min ≤ x := by
      simp only [accStep]; split_ifs <;> omega
    refine ⟨by simpa using le_trans h1 hx.1, ?_⟩
    intro d hd
    rcases List.mem_cons.1 hd with rfl | hd
    · simpa using le_trans h1 hx.2
    · simpa using h2 d hd

theorem foldl_accStep_min_mem (l : List Int) (a : Acc) :
    (l.foldl accStep a).min = a.min ∨ (l.foldl accStep a).min ∈ l := by
  induction l generalizing a with
  | nil => simp
  | cons x l ih =>
    rcases ih (accStep a x) with h | h
    · have hx : (accStep a x).min = a.min ∨ (accStep a x).min = x := by
        simp only [accStep]; split_ifs <;> simp
      rcases hx with hx | hx
      · left; simpa [hx] using h
      · right; simp only [List.foldl_cons, h, hx]; simp
    · right; simp only [List.foldl_cons]; exact List.mem_cons_of_mem _ h

theorem foldl_accStep_le_max (l : List Int) (a : Acc) :
    a.max ≤ (l.foldl accStep a).max ∧ ∀ d ∈ l, d ≤ (l.foldl accStep a).max := by
  induction l generalizing a with
  | nil => simp
  | cons x l ih =>
    obtain ⟨h1, h2⟩ := ih (accStep a x)
    have hx : a.max ≤ (accStep a x).max ∧ x ≤ (accStep a x).max := by
      simp only [accStep]; split_ifs <;> omega
    refine ⟨by simpa using le_trans hx.1 h1, ?_⟩
    intro d hd
    rcases List.mem_cons.1 hd with rfl | hd
    · simpa using le_trans hx.2 h1
    · simpa using h2 d hd

theorem foldl_accStep_max_mem (l : List Int) (a : Acc) :
    (l.foldl accStep a).max = a.max ∨ (l.foldl accStep a).max ∈ l := by
  induction l generalizing a with
  | nil => simp
  | cons x l ih =>
    rcases ih (accStep a x) with h | h
    · have hx : (accStep a x).max = a.max ∨ (accStep a x).max = x := by
        simp only [accStep]; split_ifs <;> simp
      rcases hx with hx | hx
      · left; simpa [hx] using h
      · right; simp only [List.foldl_cons, h, hx]; simp
    · right; simp only [List.foldl_cons]; exact List.mem_cons_of_mem _ h

/-- The loop does not depend on the order in which the channel is drained. -/
theorem reduceLoop_perm {l₁ l₂ : List Int} (p : l₁.Perm l₂) : reduceLoop l₁ = reduceLoop l₂ :=
  p.foldl_eq' (fun x _ y _ z => accStep_comm z x y) Acc.init

theorem foldl_deliver (os : List Outcome) (c : List Int × List String) :
    os.foldl deliver c =
      (c.1 ++ os.filterMap Outcome.latency?, c.2 ++ os.filterMap Outcome.cause?) := by
  induction os generalizing c with
  | nil => simp
  | cons o os ih =>
    cases o <;> simp [ih, deliver, Outcome.latency?, Outcome.cause?]

theorem deliverAll_eq (os : List Outcome) :
    deliverAll os = (os.filterMap Outcome.latency?, os.filterMap Outcome.cause?) := by
  simp [deliverAll, foldl_deliver]

/-! ## Lemmas on the goroutine table -/
theorem countP_set_getElem? (p : TaskPc → Bool) (ts : List TaskPc) (n : Nat) (old new : TaskPc)
    (h : ts[n]? = some old) :
    (ts.set n new).countP p + (if p old then 1 else 0)
      = ts.countP p + (if p new then 1 else 0) := by
  induction ts generalizing n with
  | nil => simp at h
  | cons t ts ih =>
    cases n with
    | zero =>
      simp only [List.getElem?_cons_zero, Option.some.injEq] at h
      subst h
      simp only [List.set_cons_zero, List.countP_cons]
      omega
    | succ n =>
      simp only [List.getElem?_cons_succ] at h
      have := ih n h
      simp only [List.set_cons_succ, List.countP_cons]
      omega

theorem sum_stepsLeft_set (ts : List TaskPc) (n : Nat) (old new : TaskPc)
    (h : ts[n]? = some old) :
    ((ts.set n new).map TaskPc.stepsLeft).sum + old.stepsLeft
      = (ts.map TaskPc.stepsLeft).sum + new.stepsLeft := by
  induction ts generalizing n with
  | nil => simp at h
  | cons t ts ih =>
    cases n with
    | zero =>
      simp only [List.getElem?_cons_zero, Option.some.injEq] at h
      subst h
      simp only [List.set_cons_zero, List.map_cons, List.sum_cons]
      omega
    | succ n =>
      simp only [List.getElem?_cons_succ] at h
      have := ih n h
      simp only [List.set_cons_succ, List.map_cons, List.sum_cons]
      omega

theorem countP_lt_length (p : TaskPc → Bool) (ts : List TaskPc) (n : Nat) (t : TaskPc)
    (h : ts[n]? = some t) (hp : p t = false) : ts.countP p < ts.length := by
  induction ts generalizing n with
  | nil => simp at h
  | cons u ts ih =>
    cases n with
    | zero =>
      simp only [List.getElem?_cons_zero, Option.some.injEq] at h
      subst h
      have := List.countP_le_length p (l := ts)
      simp only [List.countP_cons, hp, List.length_cons]
      simp only [Bool.false_eq_true, if_false]
      omega
    | succ n =>
      simp only [List.getElem?_cons_succ] at h
      have := ih n h
      simp only [List.countP_cons, List.length_cons]
      split <;> omega

theorem exists_of_countP_lt_length (p : TaskPc → Bool) (ts : List TaskPc)
    (h : ts.countP p < ts.length) : ∃ (n : Nat) (t : TaskPc), ts[n]? = some t ∧ p t = false := by
  induction ts with
  | nil => simp at h
  | cons u ts ih =>
    by_cases hu : p u = true
    · simp only [List.countP_cons, hu, if_true, List.length_cons] at h
      obtain ⟨n, t, hn, ht⟩ := ih (by omega)
      exact ⟨n + 1, t, by simpa using hn, ht⟩
    · exact ⟨(0 : Nat), u, by simp, by simpa using hu⟩

theorem holders_add_exitedCount (ts : List TaskPc) : holders ts + exitedCount ts = ts.length := by
  induction ts with
  | nil => rfl
  | cons t ts ih =>
    simp only [holders, exitedCount, List.countP_cons, List.length_cons] at ih ⊢
    cases t <;> simp [TaskPc.holdsSlot, TaskPc.hasExited] <;> omega

theorem exitedCount_le_reported (ts : List TaskPc) : exitedCount ts ≤ reported ts := by
  induction ts with
  | nil => simp [exitedCount, reported]
  | cons t ts ih =>
    simp only [reported, exitedCount, List.countP_cons] at ih ⊢
    cases t <;> simp [TaskPc.hasReported, TaskPc.hasExited] <;> omega

theorem reported_le_length (ts : List TaskPc) : reported ts ≤ ts.length :=
  List.countP_le_length _

/-! ## The invariant holds in every reachable state -/
theorem inv_init (cfg : Config) : Inv cfg State.init where
  flags := by simp [State.init]
  sem_le := by simp [State.init]
  tokens := by simp [State.init, exitedCount, sentOf]
  launched := by simp [State.init, launchedOf]
  loop := by simp [State.init, inLoop]
  outcomes := by simp [State.init, reported]
  printed := by simp [State.init]
  crashed := by simp [State.init]

theorem exitedCount_append_post (ts : List TaskPc) :
    exitedCount (ts ++ [.post]) = exitedCount ts := by
  simp [exitedCount, List.countP_append, TaskPc.hasExited]

theorem reported_append_post (ts : List TaskPc) : reported (ts ++ [.post]) = reported ts := by
  simp [reported, List.countP_append, TaskPc.hasReported]

theorem inv_stepMain {cfg : Config} {s s' : State} (h : Inv cfg s)
    (hs : stepMain cfg s = some s') : Inv cfg s' := by
  obtain ⟨flags, sem_le, tokens, launched, loop, outcomes, printed, crashed⟩ := h
  obtain ⟨pc, sem, tasks, results, errors⟩ := s
  unfold stepMain at hs
  cases pc with
  | start =>
    simp only at hs
    split at hs
    · cases hs
      constructor <;> simp_all [sentOf, launchedOf, inLoop]
    · rename_i hok
      have hf := (startPanics_eq_false_iff cfg).1 (by simpa using hok)
      cases hs
      constructor <;> simp_all [sentOf, launchedOf, inLoop]
  | dispatch i =>
    simp only at hs
    have hf := flags (by simp) (by simp)
    split at hs
    · split at hs
      · cases hs
        constructor <;>
          simp_all [sentOf, launchedOf, inLoop, Config.outCap, Config.semCap] <;> omega
      · cases hs
    · cases hs
      constructor <;>
        simp_all [sentOf, launchedOf, inLoop, Config.outCap, Config.semCap] <;> omega
  | launch i =>
    simp only at hs
    have hf := flags (by simp) (by simp)
    cases hs
    constructor <;>
      simp_all [sentOf, launchedOf, inLoop, Config.outCap, Config.semCap,
        exitedCount_append_post, reported_append_post]
    omega
  | wait i =>
    simp only at hs
    have hf := flags (by simp) (by simp)
    split at hs
    · split at hs
      · cases hs
        constructor <;>
          simp_all [sentOf, launchedOf, inLoop, Config.outCap, Config.semCap] <;> omega
      · cases hs
    · cases hs
      constructor <;>
        simp_all [sentOf, launchedOf, inLoop, Config.outCap, Config.semCap]
      omega
  | closing =>
    simp only at hs
    cases hs
    constructor <;> simp_all [sentOf, launchedOf, inLoop, Config.outCap, Config.semCap]
  | reducing =>
    simp only at hs
    cases hs
    constructor <;> simp_all [sentOf, launchedOf, inLoop, Config.outCap, Config.semCap]
  | done r => simp at hs
  | panicked => simp at hs

theorem inv_stepTask {cfg : Config} {s s' : State} {n : Nat} (h : Inv cfg s)
    (hs : stepTask cfg s n = some s') : Inv cfg s' := by
  obtain ⟨flags, sem_le, tokens, launched, loop, outcomes, printed, crashed⟩ := h
  obtain ⟨pc, sem, tasks, results, errors⟩ := s
  unfold stepTask at hs
  simp only [exitedCount, reported] at *
  split at hs
  · cases hs
  rename_i hend
  split at hs
  · cases hs
  · -- post
    rename_i hn
    cases hs
    have e1 := countP_set_getElem? TaskPc.hasExited tasks n .post .report hn
    have e2 := countP_set_getElem? TaskPc.hasReported tasks n .post .report hn
    simp [TaskPc.hasExited, TaskPc.hasReported] at e1 e2
    constructor <;> simp only [exitedCount, reported, List.length_set] <;>
      first | assumption | omega
  · -- report
    rename_i hn
    have e1 := countP_set_getElem? TaskPc.hasExited tasks n .report .release hn
    have e2 := countP_set_getElem? TaskPc.hasReported tasks n .report .release hn
    have e3 := countP_lt_length TaskPc.hasExited tasks n .report hn rfl
    simp [TaskPc.hasExited, TaskPc.hasReported] at e1 e2
    split at hs
    · rename_i hpc
      subst hpc
      simp only [sentOf, launchedOf] at tokens launched
      omega
    · split at hs
      · split at hs
        · cases hs
          constructor <;>
            simp only [exitedCount, reported, List.length_set, List.length_append,
              List.length_singleton] <;>
            first | assumption | omega | (intro r hr; subst hr; exact absurd rfl hend)
        · cases hs
      · split at hs
        · cases hs
          constructor <;>
            simp only [exitedCount, reported, List.length_set, List.length_append,
              List.length_singleton] <;>
            first | assumption | omega | (intro r hr; subst hr; exact absurd rfl hend)
        · cases hs
  · -- release
    rename_i hn
    have e1 := countP_set_getElem? TaskPc.hasExited tasks n .release .exited hn
    have e2 := countP_set_getElem? TaskPc.hasReported tasks n .release .exited hn
    simp [TaskPc.hasExited, TaskPc.hasReported] at e1 e2
    split at hs
    · cases hs
      constructor <;> simp only [exitedCount, reported, List.length_set] <;>
        first | assumption | omega
    · cases hs
  · cases hs

theorem inv_stepHandoff {cfg : Config} {s s' : State} {n : Nat} (h : Inv cfg s)
    (hs : stepHandoff cfg s n = some s') : Inv cfg s' := by
  obtain ⟨flags, sem_le, tokens, launched, loop, outcomes, printed, crashed⟩ := h
  obtain ⟨pc, sem, tasks, results, errors⟩ := s
  unfold stepHandoff at hs
  simp only [exitedCount, reported] at *
  split at hs
  · rename_i hc
    obtain ⟨hc, hn⟩ := hc
    have e1 := countP_set_getElem? TaskPc.hasExited tasks n .release .exited hn
    have e2 := countP_set_getElem? TaskPc.hasReported tasks n .release .exited hn
    simp [TaskPc.hasExited, TaskPc.hasReported] at e1 e2
    split at hs
    · have hf := flags (by simp) (by simp)
      simp only [sentOf, launchedOf, inLoop, Config.outCap, Config.semCap] at *
      split at hs
      · cases hs
        constructor <;>
          simp only [exitedCount, reported, sentOf, launchedOf, inLoop, List.length_set,
            Config.outCap, Config.semCap] <;>
          first | omega | (intros; simp_all)
      · cases hs
    · have hf := flags (by simp) (by simp)
      simp only [sentOf, launchedOf, inLoop, Config.outCap, Config.semCap] at *
      split at hs
      · omega
      · cases hs
    · cases hs
  · cases hs

theorem inv_step {cfg : Config} {s s' : State} {a : Action} (h : Inv cfg s)
    (hs : step cfg s a = some s') : Inv cfg s' := by
  cases a with
  | main => exact inv_stepMain h hs
  | task n => exact inv_stepTask h hs
  | handoff n => exact inv_stepHandoff h hs

theorem inv_of_reachable {cfg : Config} {s : State} (h : Reachable cfg s) : Inv cfg s := by
  induction h with
  | init => exact inv_init cfg
  | step a _ hs ih => exact inv_step ih hs

/-! ## Termination and absence of deadlock -/
theorem movesLeft_stepMain {cfg : Config} {s s' : State} (hs : stepMain cfg s = some s') :
    movesLeft cfg s' < movesLeft cfg s := by
  obtain ⟨pc, sem, tasks, results, errors⟩ := s
  unfold stepMain at hs
  cases pc <;> simp only at hs
  case start =>
    split at hs <;> cases hs <;> simp only [movesLeft, mainLeft] <;> omega
  case dispatch i =>
    split at hs
    · split at hs
      · cases hs
        simp only [movesLeft, mainLeft, Config.outCap]
        omega
      · cases hs
    · cases hs
      simp only [movesLeft, mainLeft]
      omega
  case launch i =>
    cases hs
    simp only [movesLeft, mainLeft, List.map_append, List.sum_append, List.map_cons,
      List.map_nil, List.sum_cons, List.sum_nil, TaskPc.stepsLeft]
    omega
  case wait i =>
    split at hs
    · split at hs
      · cases hs
        simp only [movesLeft, mainLeft, Config.semCap]
        omega
      · cases hs
    · cases hs
      simp only [movesLeft, mainLeft]
      omega
  case closing => cases hs; simp [movesLeft, mainLeft]
  case reducing => cases hs; simp [movesLeft, mainLeft]
  case done r => cases hs
  case panicked => cases hs

theorem movesLeft_stepTask {cfg : Config} {s s' : State} {n : Nat}
    (hs : stepTask cfg s n = some s') : movesLeft cfg s' < movesLeft cfg s := by
  obtain ⟨pc, sem, tasks, results, errors⟩ := s
  unfold stepTask at hs
  split at hs
  · cases hs
  split at hs
  · cases hs
  · rename_i hn
    cases hs
    have e := sum_stepsLeft_set tasks n .post .report hn
    simp only [TaskPc.stepsLeft] at e
    simp only [movesLeft]
    omega
  · rename_i hn
    have e := sum_stepsLeft_set tasks n .report .release hn
    simp only [TaskPc.stepsLeft] at e
    split at hs
    · rename_i hpc
      cases hs
      simp only at hpc
      subst hpc
      simp only [movesLeft, mainLeft]
      omega
    · split at hs <;> split at hs <;> cases hs <;> simp only [movesLeft] <;> omega
  · rename_i hn
    have e := sum_stepsLeft_set tasks n .release .exited hn
    simp only [TaskPc.stepsLeft] at e
    split at hs
    · cases hs
      simp only [movesLeft]
      omega
    · cases hs
  · cases hs

theorem movesLeft_stepHandoff {cfg : Config} {s s' : State} {n : Nat}
    (hs : stepHandoff cfg s n = some s') : movesLeft cfg s' < movesLeft cfg s := by
  obtain ⟨pc, sem, tasks, results, errors⟩ := s
  unfold stepHandoff at hs
  split at hs
  · rename_i hc
    have e := sum_stepsLeft_set tasks n .release .exited hc.2
    simp only [TaskPc.stepsLeft] at e
    cases pc <;> simp only at hs
    case dispatch i =>
      split at hs
      · cases hs
        simp only [movesLeft, mainLeft, Config.outCap]
        omega
      · cases hs
    case wait i =>
      split at hs
      · cases hs
        simp only [movesLeft, mainLeft, Config.semCap]
        omega
      · cases hs
    all_goals cases hs
  · cases hs

/-- Every move brings the end of the run closer. -/
theorem movesLeft_step {cfg : Config} {s s' : State} {a : Action}
    (hs : step cfg s a = some s') : movesLeft cfg s' < movesLeft cfg s := by
  cases a with
  | main => exact movesLeft_stepMain hs
  | task n => exact movesLeft_stepTask hs
  | handoff n => exact movesLeft_stepHandoff hs

theorem inv_length_le {cfg : Config} {s : State} (h : Inv cfg s) :
    s.tasks.length ≤ cfg.outCap := by
  have h1 := h.launched
  have h2 := h.loop
  cases hpc : s.pc <;> simp only [hpc, launchedOf, inLoop] at h1 h2 <;> omega

/-- A launched goroutine that has not returned can move whenever the
dispatcher has not closed the channels and `sem` holds a token. -/
theorem stepTask_enabled {cfg : Config} {s : State} {n : Nat} {t : TaskPc} (h : Inv cfg s)
    (hend : s.pc.ended = false) (hpc : s.pc ≠ .reducing) (hsem : 0 < s.sem)
    (hn : s.tasks[n]? = some t) (ht : t.hasExited = false) :
    ∃ s', stepTask cfg s n = some s' := by
  have hlen := inv_length_le h
  have hout := h.outcomes
  unfold stepTask
  simp only [hend, Bool.false_eq_true, if_false, hn]
  cases t with
  | post => exact ⟨_, rfl⟩
  | report =>
    have e := countP_lt_length TaskPc.hasReported s.tasks n .report hn rfl
    simp only [reported] at hout
    simp only [hpc, if_false]
    cases taskOutcome (cfg.transport n) with
    | success d =>
      have : s.results.length < cfg.outCap := by omega
      simp only [this, if_true]
      exact ⟨_, rfl⟩
    | failure e =>
      have : s.errors.length < cfg.outCap := by omega
      simp only [this, if_true]
      exact ⟨_, rfl⟩
  | release =>
    simp only [gt_iff_lt, hsem, if_true]
    exact ⟨_, rfl⟩
  | exited => simp [TaskPc.hasExited] at ht

/-- With at least one slot and channels that can be created, a run that has
not printed its report is never stuck. -/
theorem progress {cfg : Config} {s : State} (h : Inv cfg s)
    (hok : startPanics cfg = false) (hc : 1 ≤ cfg.concurrency) :
    (∃ r, s.pc = .done r) ∨ ∃ a s', step cfg s a = some s' := by
  have hsem := h.sem_le
  have htok := h.tokens
  have hlau := h.launched
  have hloop := h.loop
  have hC : 1 ≤ cfg.semCap := by simp only [Config.semCap]; omega
  cases hpc : s.pc with
  | start =>
    right
    refine ⟨.main, ?_⟩
    simp only [step, stepMain, hpc]
    split <;> exact ⟨_, rfl⟩
  | dispatch i =>
    right
    by_cases hi : (i : Int) < cfg.requests
    · by_cases hs : s.sem < cfg.semCap
      · exact ⟨.main, by simp only [step, stepMain, hpc, hi, hs, if_true]; exact ⟨_, rfl⟩⟩
      · simp only [hpc, sentOf, launchedOf, exitedCount] at htok hlau
        obtain ⟨n, t, hn, ht⟩ :=
          exists_of_countP_lt_length TaskPc.hasExited s.tasks (by omega)
        obtain ⟨s', hs'⟩ := stepTask_enabled h (by simp [hpc, MainPc.ended]) (by simp [hpc])
          (by omega) hn ht
        exact ⟨.task n, s', hs'⟩
    · exact ⟨.main, by simp only [step, stepMain, hpc, hi, if_false]; exact ⟨_, rfl⟩⟩
  | launch i => exact Or.inr ⟨.main, by simp only [step, stepMain, hpc]; exact ⟨_, rfl⟩⟩
  | wait i =>
    right
    by_cases hi : (i : Int) < cfg.concurrency
    · by_cases hs : s.sem < cfg.semCap
      · exact ⟨.main, by simp only [step, stepMain, hpc, hi, hs, if_true]; exact ⟨_, rfl⟩⟩
      · simp only [hpc, sentOf, launchedOf, exitedCount, Config.semCap] at htok hlau hs hsem
        obtain ⟨n, t, hn, ht⟩ :=
          exists_of_countP_lt_length TaskPc.hasExited s.tasks (by omega)
        obtain ⟨s', hs'⟩ := stepTask_enabled h (by simp [hpc, MainPc.ended]) (by simp [hpc])
          (by simp only [Config.semCap] at hC; omega) hn ht
        exact ⟨.task n, s', hs'⟩
    · exact ⟨.main, by simp only [step, stepMain, hpc, hi, if_false]; exact ⟨_, rfl⟩⟩
  | closing => exact Or.inr ⟨.main, by simp only [step, stepMain, hpc]; exact ⟨_, rfl⟩⟩
  | reducing => exact Or.inr ⟨.main, by simp only [step, stepMain, hpc]; exact ⟨_, rfl⟩⟩
  | done r => exact Or.inl ⟨r, rfl⟩
  | panicked =>
    have := h.crashed hpc
    simp [hok] at this

theorem ReachableFrom.trans {cfg : Config} {s t u : State} (h1 : ReachableFrom cfg s t)
    (h2 : ReachableFrom cfg t u) : ReachableFrom cfg s u := by
  induction h2 with
  | refl => exact h1
  | step a _ hs ih => exact ReachableFrom.step a ih hs

theorem Reachable.from {cfg : Config} {s t : State} (h1 : Reachable cfg s)
    (h2 : ReachableFrom cfg s t) : Reachable cfg t := by
  induction h2 with
  | refl => exact h1
  | step a _ hs ih => exact Reachable.step a ih hs

/-- With at least one slot and channels that can be created, the run can
always go on to print its report. -/
theorem can_finish {cfg : Config} (hok : startPanics cfg = false)
    (hc : 1 ≤ cfg.concurrency) :
    ∀ (m : Nat) (s : State), movesLeft cfg s ≤ m → Inv cfg s →
      ∃ s' r, ReachableFrom cfg s s' ∧ s'.pc = .done r := by
  intro m
  induction m with
  | zero =>
    intro s hm h
    rcases progress h hok hc with ⟨r, hr'⟩ | ⟨a, s', hs⟩
    · exact ⟨s, r, .refl, hr'⟩
    · have := movesLeft_step hs
      omega
  | succ m ih =>
    intro s hm h
    rcases progress h hok hc with ⟨r, hr'⟩ | ⟨a, s', hs⟩
    · exact ⟨s, r, .refl, hr'⟩
    · have hlt := movesLeft_step hs
      obtain ⟨s'', r, hreach, hdone⟩ := ih s' (by omega) (inv_step h hs)
      exact ⟨s'', r, ReachableFrom.trans (.step a .refl hs) hreach, hdone⟩

/-! ## Every outcome is collected exactly once -/
theorem sentOutcomes_append_post (cfg : Config) (ts : List TaskPc) (n : Nat) :
    sentOutcomes cfg n (ts ++ [.post]) = sentOutcomes cfg n ts := by
  induction ts generalizing n with
  | nil => simp [sentOutcomes, TaskPc.hasReported]
  | cons t ts ih => simp [sentOutcomes, ih]

theorem sentOutcomes_set_same (cfg : Config) (ts : List TaskPc) (n k : Nat) (old new : TaskPc)
    (h : ts[k]? = some old) (hp : old.hasReported = new.hasReported) :
    sentOutcomes cfg n (ts.set k new) = sentOutcomes cfg n ts := by
  induction ts generalizing n k with
  | nil => simp at h
  | cons t ts ih =>
    cases k with
    | zero =>
      simp only [List.getElem?_cons_zero, Option.some.injEq] at h
      subst h
      simp [sentOutcomes, hp]
    | succ k =>
      simp only [List.getElem?_cons_succ] at h
      simp [sentOutcomes, ih (n + 1) k h]

theorem sentOutcomes_set_report (cfg : Config) (ts : List TaskPc) (n k : Nat)
    (h : ts[k]? = some .report) :
    (sentOutcomes cfg n (ts.set k .release)).Perm
      (taskOutcome (cfg.transport (n + k)) :: sentOutcomes cfg n ts) := by
  induction ts generalizing n k with
  | nil => simp at h
  | cons t ts ih =>
    cases k with
    | zero =>
      simp only [List.getElem?_cons_zero, Option.some.injEq] at h
      subst h
      simp [sentOutcomes, TaskPc.hasReported]
    | succ k =>
      simp only [List.getElem?_cons_succ] at h
      have := ih (n + 1) k h
      have e : n + 1 + k = n + (k + 1) := by omega
      rw [e] at this
      simp only [List.set_cons_succ, sentOutcomes]
      split
      · exact (List.Perm.cons _ this).trans (List.Perm.swap _ _ _)
      · exact this

theorem sentOutcomes_all (cfg : Config) (ts : List TaskPc) (n : Nat)
    (h : ∀ t ∈ ts, t.hasReported = true) :
    sentOutcomes cfg n ts =
      (List.range' n ts.length).map (fun i => taskOutcome (cfg.transport i)) := by
  induction ts generalizing n with
  | nil => simp [sentOutcomes]
  | cons t ts ih =>
    have ht := h t (List.mem_cons_self _ _)
    have := ih (n + 1) (fun u hu => h u (List.mem_cons_of_mem _ hu))
    simp [sentOutcomes, ht, this, List.range'_succ]

theorem collected_perm_step {cfg : Config} {s s' : State} {a : Action}
    (h : s.collected.Perm (sentOutcomes cfg 0 s.tasks)) (hs : step cfg s a = some s') :
    s'.collected.Perm (sentOutcomes cfg 0 s'.tasks) := by
  obtain ⟨pc, sem, tasks, results, errors⟩ := s
  simp only [State.collected] at h ⊢
  cases a with
  | main =>
    simp only [step, stepMain] at hs
    cases pc <;> simp only at hs
    case start => split at hs <;> cases hs <;> exact h
    case dispatch i =>
      split at hs
      · split at hs <;> cases hs
        exact h
      · cases hs; exact h
    case launch i =>
      cases hs
      simpa only [sentOutcomes_append_post] using h
    case wait i =>
      split at hs
      · split at hs <;> cases hs
        exact h
      · cases hs; exact h
    case closing => cases hs; exact h
    case reducing => cases hs; exact h
    case done r => cases hs
    case panicked => cases hs
  | task n =>
    simp only [step, stepTask] at hs
    split at hs
    · cases hs
    split at hs
    · cases hs
    · rename_i hn
      cases hs
      simpa only [sentOutcomes_set_same cfg tasks 0 n .post .report hn rfl] using h
    · rename_i hn
      have e := sentOutcomes_set_report cfg tasks 0 n hn
      simp only [Nat.zero_add] at e
      split at hs
      · cases hs; exact h
      · split at hs
        · rename_i d hd
          split at hs
          · cases hs
            rw [hd] at e
            refine List.Perm.trans ?_ e.symm
            simp only [List.map_append, List.map_cons, List.map_nil, List.append_assoc]
            refine List.Perm.trans ?_ (List.Perm.cons _ h)
            exact List.perm_middle
          · cases hs
        · rename_i d hd
          split at hs
          · cases hs
            rw [hd] at e
            refine List.Perm.trans ?_ e.symm
            simp only [List.map_append, List.map_cons, List.map_nil]
            refine List.Perm.trans ?_ (List.Perm.cons _ h)
            rw [← List.append_assoc]
            exact List.perm_append_singleton _ _
          · cases hs
    · rename_i hn
      split at hs
      · cases hs
        simpa only [sentOutcomes_set_same cfg tasks 0 n .release .exited hn rfl] using h
      · cases hs
    · cases hs
  | handoff n =>
    simp only [step, stepHandoff] at hs
    split at hs
    · rename_i hc
      have e := sentOutcomes_set_same cfg tasks 0 n .release .exited hc.2 rfl
      cases pc <;> simp only at hs
      case dispatch i =>
        split at hs <;> cases hs
        simpa only [e] using h
      case wait i =>
        split at hs <;> cases hs
        simpa only [e] using h
      all_goals cases hs
    · cases hs

/-- The channels hold exactly the outcomes of the goroutines that have sent
theirs: none is lost and none is there twice. -/
theorem collected_perm {cfg : Config} {s : State} (h : Reachable cfg s) :
    s.collected.Perm (sentOutcomes cfg 0 s.tasks) := by
  induction h with
  | init => simp [State.init, State.collected, sentOutcomes]
  | step a _ hs ih => exact collected_perm_step ih hs

/-! ## The join barrier and the final report -/
theorem reachableFrom_of_runSchedule {cfg : Config} (as : List Action) {s t : State}
    (h : runSchedule cfg as s = some t) : ReachableFrom cfg s t := by
  induction as generalizing s with
  | nil =>
    simp only [runSchedule, Option.some.injEq] at h
    subst h
    exact .refl
  | cons a as ih =>
    simp only [runSchedule] at h
    split at h
    · cases h
    · rename_i s' hs
      exact ReachableFrom.trans (.step a .refl hs) (ih h)

theorem reachable_of_runSchedule {cfg : Config} (as : List Action) {t : State}
    (h : runSchedule cfg as State.init = some t) : Reachable cfg t :=
  Reachable.from .init (reachableFrom_of_runSchedule as h)

/-- Goroutines holding a slot never outnumber the tokens in `sem`. -/
theorem inv_holders_le_sem {cfg : Config} {s : State} (h : Inv cfg s) :
    holders s.tasks ≤ s.sem := by
  have h1 := h.tokens
  have h2 := h.launched
  have h3 := h.loop
  have h4 := h.sem_le
  have h5 := holders_add_exitedCount s.tasks
  cases hpc : s.pc <;> simp only [hpc, sentOf, launchedOf, inLoop] at h1 h2 h3 <;> omega

/-- Once the second loop is over, every launched goroutine has returned and
the channels hold one outcome for each request. -/
theorem inv_joined {cfg : Config} {s : State} (h : Inv cfg s)
    (hpc : s.pc = .closing ∨ s.pc = .reducing ∨ ∃ r, s.pc = .done r) :
    (∀ t ∈ s.tasks, t = .exited) ∧ s.tasks.length = cfg.outCap ∧
      s.results.length + s.errors.length = cfg.outCap ∧ s.sem = cfg.semCap := by
  have h1 := h.tokens
  have h2 := h.launched
  have h4 := h.sem_le
  have h5 := h.outcomes
  have h6 := exitedCount_le_reported s.tasks
  have h7 := reported_le_length s.tasks
  have hcount : exitedCount s.tasks = s.tasks.length ∧ s.tasks.length = cfg.outCap := by
    rcases hpc with hpc | hpc | ⟨r, hpc⟩ <;>
      simp only [hpc, sentOf, launchedOf] at h1 h2 <;> omega
  refine ⟨?_, hcount.2, by omega, ?_⟩
  · intro t ht
    have := (List.countP_eq_length (p := TaskPc.hasExited) (l := s.tasks)).1 hcount.1 t ht
    cases t <;> simp_all [TaskPc.hasExited]
  · rcases hpc with hpc | hpc | ⟨r, hpc⟩ <;>
      simp only [hpc, sentOf, launchedOf] at h1 h2 <;> omega

/-- While a launched goroutine has not returned, the process is alive, the
channels are open and `sem` holds a token. -/
theorem inv_task_live {cfg : Config} {s : State} {n : Nat} {t : TaskPc} (h : Inv cfg s)
    (hn : s.tasks[n]? = some t) (ht : t.hasExited = false) :
    s.pc.ended = false ∧ s.pc ≠ .reducing ∧ 0 < s.sem := by
  have h1 := h.tokens
  have h2 := h.launched
  have h4 := h.sem_le
  have h5 := inv_holders_le_sem h
  have h6 := holders_add_exitedCount s.tasks
  have h7 := countP_lt_length TaskPc.hasExited s.tasks n t hn ht
  simp only [exitedCount] at h1 h6
  refine ⟨?_, ?_, by omega⟩
  · cases hpc : s.pc <;> simp only [hpc, sentOf, launchedOf, MainPc.ended] at h1 h2 ⊢ <;> omega
  · intro hpc
    simp only [hpc, sentOf, launchedOf] at h1 h2
    omega

/-- The send of a goroutine never blocks and never meets a closed channel: it
appends the goroutine's outcome to its channel and leaves `sem` alone. -/
theorem stepTask_report {cfg : Config} {s : State} {n : Nat} (h : Inv cfg s)
    (hn : s.tasks[n]? = some .report) :
    stepTask cfg s n = some
      (match taskOutcome (cfg.transport n) with
       | .success d => { s with results := s.results ++ [d], tasks := s.tasks.set n .release }
       | .failure e => { s with errors := s.errors ++ [e], tasks := s.tasks.set n .release }) := by
  obtain ⟨hend, hpc, _⟩ := inv_task_live h hn rfl
  have hlen := inv_length_le h
  have hout := h.outcomes
  have e := countP_lt_length TaskPc.hasReported s.tasks n .report hn rfl
  simp only [reported] at hout
  unfold stepTask
  simp only [hend, Bool.false_eq_true, if_false, hn, hpc]
  cases taskOutcome (cfg.transport n) with
  | success d =>
    have : s.results.length < cfg.outCap := by omega
    simp only [this, if_true]
  | failure e =>
    have : s.errors.length < cfg.outCap := by omega
    simp only [this, if_true]

/-- The deferred receive of a goroutine never blocks: it takes one token and
leaves the outcome channels alone. -/
theorem stepTask_release {cfg : Config} {s : State} {n : Nat} (h : Inv cfg s)
    (hn : s.tasks[n]? = some .release) :
    stepTask cfg s n = some { s with sem := s.sem - 1, tasks := s.tasks.set n .exited } := by
  obtain ⟨hend, _, hsem⟩ := inv_task_live h hn rfl
  unfold stepTask
  simp only [hend, Bool.false_eq_true, if_false, hn, gt_iff_lt, hsem, if_true]

theorem collected_filterMap_latency (s : State) :
    s.collected.filterMap Outcome.latency? = s.results := by
  simp only [State.collected, List.filterMap_append, List.filterMap_map]
  have h1 : List.filterMap (Outcome.latency? ∘ Outcome.success) s.results = s.results := by
    induction s.results with
    | nil => rfl
    | cons d l ih => simp [List.filterMap_cons, Outcome.latency?, ih]
  have h2 : List.filterMap (Outcome.latency? ∘ Outcome.failure) s.errors = [] := by
    induction s.errors with
    | nil => rfl
    | cons d l ih => simp [List.filterMap_cons, Outcome.latency?, ih]
  rw [h1, h2, List.append_nil]

theorem collected_filterMap_cause (s : State) :
    s.collected.filterMap Outcome.cause? = s.errors := by
  simp only [State.collected, List.filterMap_append, List.filterMap_map]
  have h1 : List.filterMap (Outcome.cause? ∘ Outcome.success) s.results = [] := by
    induction s.results with
    | nil => rfl
    | cons d l ih => simp [List.filterMap_cons, Outcome.cause?, ih]
  have h2 : List.filterMap (Outcome.cause? ∘ Outcome.failure) s.errors = s.errors := by
    induction s.errors with
    | nil => rfl
    | cons d l ih => simp [List.filterMap_cons, Outcome.cause?, ih]
  rw [h1, h2, List.nil_append]

theorem mkReport_perm (requests totalTime : Int) {r₁ r₂ : List Int} {e₁ e₂ : List String}
    (hr : r₁.Perm r₂) (he : e₁.Perm e₂) :
    mkReport requests totalTime r₁ e₁ = mkReport requests totalTime r₂ e₂ := by
  simp only [mkReport, reduceLoop_perm hr, he.length_eq]

/-- The report does not depend on the order in which the outcomes were sent. -/
theorem aggregate_perm (requests totalTime : Int) {os₁ os₂ : List Outcome}
    (h : os₁.Perm os₂) : aggregate requests totalTime os₁ = aggregate requests totalTime os₂ := by
  simp only [aggregate, deliverAll_eq]
  exact mkReport_perm _ _ (h.filterMap _) (h.filterMap _)

theorem mkReport_eq_aggregate (requests totalTime : Int) (s : State) {os : List Outcome}
    (h : s.collected.Perm os) :
    mkReport requests totalTime s.results s.errors = aggregate requests totalTime os := by
  simp only [aggregate, deliverAll_eq]
  apply mkReport_perm
  · simpa only [collected_filterMap_latency] using h.filterMap Outcome.latency?
  · simpa only [collected_filterMap_cause] using h.filterMap Outcome.cause?

/-- After the second loop the channels hold the outcome of every request. -/
theorem collected_joined {cfg : Config} {s : State} (h : Reachable cfg s)
    (hpc : s.pc = .closing ∨ s.pc = .reducing ∨ ∃ r, s.pc = .done r) :
    s.collected.Perm (allOutcomes cfg) := by
  obtain ⟨hall, hlen, _, _⟩ := inv_joined (inv_of_reachable h) hpc
  have := collected_perm h
  rw [sentOutcomes_all cfg s.tasks 0 (fun t ht => by rw [hall t ht]; rfl), hlen] at this
  simpa only [allOutcomes, List.range_eq_range'] using this

/-- Without a slot in `sem` no goroutine is ever launched. -/
theorem no_task_step {cfg : Config} (hc : cfg.concurrency ≤ 0) {s s' : State} {a : Action}
    (h : s.tasks = [] ∧ ∀ i, s.pc ≠ .launch i) (hs : step cfg s a = some s') :
    s'.tasks = [] ∧ ∀ i, s'.pc ≠ .launch i := by
  obtain ⟨pc, sem, tasks, results, errors⟩ := s
  obtain ⟨ht, hpc⟩ := h
  simp only at ht hpc
  subst ht
  have hcap : ¬ sem < cfg.semCap := by simp only [Config.semCap]; omega
  cases a with
  | main =>
    simp only [step, stepMain] at hs
    cases pc <;> simp only at hs
    case start => split at hs <;> cases hs <;> simp
    case dispatch i =>
      simp only [hcap, if_false] at hs
      split at hs <;> cases hs
      simp
    case launch i => exact absurd rfl (hpc i)
    case wait i =>
      simp only [hcap, if_false] at hs
      split at hs <;> cases hs
      simp
    case closing => cases hs; simp
    case reducing => cases hs; simp
    case done r => cases hs
    case panicked => cases hs
  | task n =>
    simp only [step, stepTask] at hs
    split at hs <;> simp at hs
  | handoff n => simp [step, stepHandoff] at hs

theorem no_task_of_reachable {cfg : Config} (hc : cfg.concurrency ≤ 0) {s : State}
    (h : Reachable cfg s) : s.tasks = [] ∧ ∀ i, s.pc ≠ .launch i := by
  induction h with
  | init => simp [State.init]
  | step a _ hs ih => exact no_task_step hc ih hs

/-! ## Bounds on the latency lines -/
theorem length_mul_le_sum (l : List Int) (m : Int) (h : ∀ d ∈ l, m ≤ d) :
    (l.length : Int) * m ≤ l.sum := by
  induction l with
  | nil => simp
  | cons x l ih =>
    have h1 := h x (List.mem_cons_self _ _)
    have h2 := ih (fun d hd => h d (List.mem_cons_of_mem _ hd))
    simp only [List.length_cons, List.sum_cons, Nat.cast_add, Nat.cast_one]
    linarith

theorem sum_le_length_mul (l : List Int) (m : Int) (h : ∀ d ∈ l, d ≤ m) :
    l.sum ≤ (l.length : Int) * m := by
  induction l with
  | nil => simp
  | cons x l ih =>
    have h1 := h x (List.mem_cons_self _ _)
    have h2 := ih (fun d hd => h d (List.mem_cons_of_mem _ hd))
    simp only [List.length_cons, List.sum_cons, Nat.cast_add, Nat.cast_one]
    linarith

theorem sum_eq_length_mul (l : List Int) (d : Int) (h : ∀ x ∈ l, x = d) :
    l.sum = (l.length : Int) * d :=
  le_antisymm (sum_le_length_mul l d (fun x hx => le_of_eq (h x hx)))
    (length_mul_le_sum l d (fun x hx => le_of_eq (h x hx).symm))

/-- The latency lines of a report over at least one success. -/
theorem mkReport_latency (requests totalTime : Int) (results : List Int) (errors : List String)
    (hne : results ≠ []) :
    (mkReport requests totalTime results errors).latency =
      some { avg := Int.tdiv (wrap64 results.sum) (results.length : Int)
             min := (reduceLoop results).min
             max := (reduceLoop results).max
             rpsCount := results.length
             rpsTime := totalTime } := by
  have hlen : 0 < results.length := List.length_pos.2 hne
  simp only [mkReport, reduceLoop_count, reduceLoop_total, gt_iff_lt, hlen, if_true]

theorem reduceLoop_min_le (results : List Int) : ∀ d ∈ results, (reduceLoop results).min ≤ d :=
  (foldl_accStep_min_le results Acc.init).2

theorem reduceLoop_le_max (results : List Int) : ∀ d ∈ results, d ≤ (reduceLoop results).max :=
  (foldl_accStep_le_max results Acc.init).2

/-- The reported min is one of the latencies as soon as one latency is at
most one hour. -/
theorem reduceLoop_min_mem (results : List Int) (h : ∃ d ∈ results, d ≤ hour) :
    (reduceLoop results).min ∈ results := by
  rcases foldl_accStep_min_mem results Acc.init with hm | hm
  · obtain ⟨x, hx, h2⟩ := h
    have h1 := reduceLoop_min_le results x hx
    have h3 : (reduceLoop results).min = hour := hm
    have : (reduceLoop results).min = x := by omega
    rw [this]
    exact hx
  · exact hm

/-- The reported max is one of the latencies as soon as one latency is not
negative. -/
theorem reduceLoop_max_mem (results : List Int) (h : ∃ d ∈ results, 0 ≤ d) :
    (reduceLoop results).max ∈ results := by
  rcases foldl_accStep_max_mem results Acc.init with hm | hm
  · obtain ⟨x, hx, h2⟩ := h
    have h1 := reduceLoop_le_max results x hx
    have h3 : (reduceLoop results).max = 0 := hm
    have : (reduceLoop results).max = x := by omega
    rw [this]
    exact hx
  · exact hm

/-- Where the min and max lines are exact: for a non-empty collection of
success latencies the reported min is at most every latency and the reported
max at least every latency; the min is the smallest latency as soon as one
latency is at most one hour, the max is the largest as soon as one latency is
not negative; and when all latencies equal d, with 0 <= d <= one hour and
count times d below 2^63, min = max = avg = d. -/
theorem min_max_exact (requests totalTime : Int) (results : List Int)
    (errors : List String) (hne : results ≠ []) :
    ∃ L, (mkReport requests totalTime results errors).latency = some L ∧
      (∀ d ∈ results, L.min ≤ d) ∧ (∀ d ∈ results, d ≤ L.max) ∧
      ((∃ d ∈ results, d ≤ hour) → L.min ∈ results) ∧
      ((∃ d ∈ results, 0 ≤ d) → L.max ∈ results) ∧
      (∀ d, (∀ x ∈ results, x = d) → 0 ≤ d → d ≤ hour →
        (results.length : Int) * d < 2 ^ 63 → L.min = d ∧ L.max = d ∧ L.avg = d) := by
  refine ⟨_, mkReport_latency requests totalTime results errors hne,
    reduceLoop_min_le results, reduceLoop_le_max results, reduceLoop_min_mem results,
    reduceLoop_max_mem results, ?_⟩
  intro d hall hd hd' hfit
  have hlen : 0 < results.length := List.length_pos.2 hne
  have hlen' : (0 : Int) < (results.length : Int) := by exact_mod_cast hlen
  obtain ⟨x, hx⟩ := List.exists_mem_of_ne_nil results hne
  have hxd := hall x hx
  have hmin := reduceLoop_min_mem results ⟨x, hx, by omega⟩
  have hmax := reduceLoop_max_mem results ⟨x, hx, by omega⟩
  have hs := sum_eq_length_mul results d hall
  have h0 : 0 ≤ results.sum := by rw [hs]; positivity
  have hw : wrap64 results.sum = results.sum := wrap64_of_inRange (by omega) (by omega)
  refine ⟨hall _ hmin, hall _ hmax, ?_⟩
  show Int.tdiv (wrap64 results.sum) (results.length : Int) = d
  rw [hw, Int.tdiv_eq_ediv h0 (le_of_lt hlen'), hs]
  exact Int.mul_ediv_cancel_left d (ne_of_gt hlen')

/-- The average line, whatever the number of successes. -/
theorem mkReport_avg (requests totalTime : Int) (results : List Int) (errors : List String) :
    (mkReport requests totalTime results errors).latency.map (fun L => L.avg) =
      if results = [] then none
      else some (Int.tdiv (wrap64 results.sum) (results.length : Int)) := by
  by_cases h : results = []
  · subst h
    rfl
  · rw [mkReport_latency requests totalTime results errors h, if_neg h]
    rfl

theorem latency_mem_filterMap {os : List Outcome} {d : Int} (h : Outcome.success d ∈ os) :
    d ∈ os.filterMap Outcome.latency? :=
  List.mem_filterMap.2 ⟨_, h, rfl⟩

/-- The average line depends on the success latencies only. -/
theorem aggregate_latency (requests totalTime : Int) (os : List Outcome) :
    (aggregate requests totalTime os).latency =
      (mkReport requests totalTime (os.filterMap Outcome.latency?) []).latency := by
  simp only [aggregate, deliverAll_eq, mkReport]

/-- When a `make(chan ...)` panics, the run has its initial state and the
panic, and nothing else. -/
theorem reachable_of_startPanics {cfg : Config} (h : startPanics cfg = true) {s : State}
    (hs : Reachable cfg s) : s = State.init ∨ s = { State.init with pc := .panicked } := by
  induction hs with
  | init => exact Or.inl rfl
  | step a _ hstep ih =>
    rcases ih with rfl | rfl
    · cases a with
      | main =>
        simp only [step, stepMain, State.init, h, if_true, Option.some.injEq] at hstep
        exact Or.inr hstep.symm
      | task n => simp [step, stepTask, State.init, MainPc.ended] at hstep
      | handoff n => simp [step, stepHandoff, State.init] at hstep
    · cases a with
      | main => simp [step, stepMain] at hstep
      | task n => simp [step, stepTask, MainPc.ended] at hstep
      | handoff n => simp [step, stepHandoff, State.init] at hstep

/-! ## Scenarios of the specification -/

/-- The printed report is the one computed from the outcomes of requests
0..total-1, whatever the interleaving. -/
theorem final_report {cfg : Config} {s : State} {r : Report} (hs : Reachable cfg s)
    (hpc : s.pc = .done r) :
    r = aggregate cfg.requests cfg.totalTime (allOutcomes cfg) ∧
      s.errors.Perm ((allOutcomes cfg).filterMap Outcome.cause?) := by
  have hperm := collected_joined hs (Or.inr (Or.inr ⟨r, hpc⟩))
  refine ⟨?_, ?_⟩
  · rw [(inv_of_reachable hs).printed r hpc]
    exact mkReport_eq_aggregate _ _ s hperm
  · simpa only [collected_filterMap_cause] using hperm.filterMap Outcome.cause?

set_option maxRecDepth 100000 in
/-- Scenario: total = 50, concurrency = 5, every request succeeds after 10ms.
Every interleaving prints succeeded = 50, failed = 0 and min = max = avg =
10ms. -/
theorem scenario_all_succeed (s : State) (r : Report) (hs : Reachable (cfgOk 50 5) s)
    (hpc : s.pc = .done r) :
    r = { total := 50, succeeded := 50, failed := 0, totalTime := 1000000000,
          latency := some { avg := 10 * millisecond, min := 10 * millisecond,
                            max := 10 * millisecond, rpsCount := 50,
                            rpsTime := 1000000000 } } := by
  rw [(final_report hs hpc).1]
  decide

set_option maxRecDepth 100000 in
/-- Scenario: total = 10, concurrency = 3, four requests answer 500. Every
interleaving prints succeeded = 6, failed = 4, and the `errors` channel holds
the text "status 500" four times. -/
theorem scenario_four_fail (s : State) (r : Report) (hs : Reachable (cfgSomeFail 10 3) s)
    (hpc : s.pc = .done r) :
    r.succeeded = 6 ∧ r.failed = 4 ∧ s.errors = List.replicate 4 "status 500" := by
  obtain ⟨h1, h2⟩ := final_report hs hpc
  have e : (allOutcomes (cfgSomeFail 10 3)).filterMap Outcome.cause?
      = List.replicate 4 "status 500" := by decide
  rw [e] at h2
  have h3 : s.errors = List.replicate s.errors.length "status 500" :=
    List.eq_replicate_of_mem (fun x hx => List.eq_of_mem_replicate (h2.subset hx))
  refine ⟨?_, ?_, h3.trans ?_⟩
  · rw [h1]; decide
  · rw [h1]; decide
  · rw [h2.length_eq]; rfl

/-! ## The claims about the run -/

/-- C1, as amended: for every total >= 0 whose outcome channels can be
created (16 bytes for each request of `errors` stay below 2^64 and within the
runtime's bound on a channel buffer), every concurrency >= 1 and every
assignment of transport results, the run is never stuck before its report is
printed, every move brings it closer to the end, from every reachable state
the report can still be reached, and in every final state `count` is the
number of items drained from `results`, `errorCount` is `len(errors)`, both
add up to `requests`, the channels hold exactly one outcome per launched
goroutine, and the report is the one computed from the outcomes of requests
0..total-1. -/
theorem succeeded_add_failed_eq_total (cfg : Config) (hr : 0 ≤ cfg.requests)
    (hc : 1 ≤ cfg.concurrency) (h64 : 16 * cfg.requests < 2 ^ 64)
    (hfit : 16 * cfg.requests ≤ cfg.maxChanBytes) :
    (∀ s, Reachable cfg s → (∃ r, s.pc = .done r) ∨ ∃ a s', step cfg s a = some s') ∧
    (∀ s a s', step cfg s a = some s' → movesLeft cfg s' < movesLeft cfg s) ∧
    (∀ s, Reachable cfg s → ∃ s' r, ReachableFrom cfg s s' ∧ s'.pc = .done r) ∧
    (∀ s r, Reachable cfg s → s.pc = .done r →
      r.succeeded = s.results.length ∧ r.failed = s.errors.length ∧
      ((r.succeeded + r.failed : Nat) : Int) = cfg.requests ∧
      r.total = cfg.requests ∧
      s.collected.Perm (allOutcomes cfg) ∧
      r = aggregate cfg.requests cfg.totalTime (allOutcomes cfg)) := by
  have hok : startPanics cfg = false :=
    (startPanics_eq_false_iff cfg).2 ⟨hr, by omega, h64, hfit⟩
  refine ⟨fun s hs => progress (inv_of_reachable hs) hok hc, fun s a s' h => movesLeft_step h,
    fun s hs => can_finish hok hc _ s (Nat.le_refl _) (inv_of_reachable hs), ?_⟩
  intro s r hs hpc
  have hinv := inv_of_reachable hs
  have hrep := hinv.printed r hpc
  obtain ⟨_, _, hsum, _⟩ := inv_joined hinv (Or.inr (Or.inr ⟨r, hpc⟩))
  have hperm := collected_joined hs (Or.inr (Or.inr ⟨r, hpc⟩))
  have h1 : r.succeeded = s.results.length := by rw [hrep]; simp [mkReport, reduceLoop_count]
  have h2 : r.failed = s.errors.length := by rw [hrep]; simp [mkReport]
  refine ⟨h1, h2, ?_, by rw [hrep]; rfl, hperm, ?_⟩
  · rw [h1, h2, hsum]
    simp only [Config.outCap]
    omega
  · rw [hrep]
    exact mkReport_eq_aggregate _ _ s hperm

theorem succeeded_add_failed_eq_total_witness :
    0 ≤ (cfgOk 2 1).requests ∧ 1 ≤ (cfgOk 2 1).concurrency ∧
      16 * (cfgOk 2 1).requests < 2 ^ 64 ∧
      16 * (cfgOk 2 1).requests ≤ (cfgOk 2 1).maxChanBytes ∧
      ∃ s r, Reachable (cfgOk 2 1) s ∧ s.pc = .done r ∧
        ((r.succeeded + r.failed : Nat) : Int) = 2 := by
  have h := succeeded_add_failed_eq_total (cfgOk 2 1) (by decide) (by decide) (by decide)
    (by decide)
  obtain ⟨s, r, hs, hpc⟩ := h.2.2.1 State.init .init
  have hreach := Reachable.from .init hs
  exact ⟨by decide, by decide, by decide, by decide, s, r, hreach, hpc,
    (h.2.2.2 s r hreach hpc).2.2.1⟩

/-- C1 fails as stated: with total = 2^62 and concurrency = 1, under the bound
of linux/amd64, `make(chan time.Duration, requests)` panics; the first move of
the run is that panic, the run reaches no other state, and no report with
final counts is ever printed. -/
theorem huge_total_panics :
    0 ≤ (cfgOk 4611686018427387904 1).requests ∧
      1 ≤ (cfgOk 4611686018427387904 1).concurrency ∧
      makechanPanics (cfgOk 4611686018427387904 1) durationSize 4611686018427387904 = true ∧
      step (cfgOk 4611686018427387904 1) State.init .main =
        some { State.init with pc := .panicked } ∧
      (∀ s, Reachable (cfgOk 4611686018427387904 1) s →
        s = State.init ∨ s = { State.init with pc := .panicked }) ∧
      ¬ ∃ s r, Reachable (cfgOk 4611686018427387904 1) s ∧ s.pc = .done r ∧
          ((r.succeeded + r.failed : Nat) : Int) = (cfgOk 4611686018427387904 1).requests := by
  have hp : startPanics (cfgOk 4611686018427387904 1) = true := by decide
  refine ⟨by decide, by decide, by decide, by decide,
    fun s hs => reachable_of_startPanics hp hs, ?_⟩
  rintro ⟨s, r, hs, hpc, _⟩
  rcases reachable_of_startPanics hp hs with rfl | rfl <;> simp [State.init] at hpc

/-- C2: with concurrency >= 1, in every state an interleaving reaches, the
goroutines that were launched and have not yet received from `sem` are no
more than the tokens in `sem`, which are no more than `concurrency`. -/
theorem holders_le_concurrency (cfg : Config) (hc : 1 ≤ cfg.concurrency) (s : State)
    (hs : Reachable cfg s) :
    holders s.tasks ≤ s.sem ∧ (s.sem : Int) ≤ cfg.concurrency ∧
      (holders s.tasks : Int) ≤ cfg.concurrency := by
  have hinv := inv_of_reachable hs
  have h1 := inv_holders_le_sem hinv
  have h2 := hinv.sem_le
  simp only [Config.semCap] at h2
  refine ⟨h1, ?_, ?_⟩ <;> omega

theorem holders_le_concurrency_witness :
    1 ≤ (cfgOk 3 2).concurrency ∧
      Reachable (cfgOk 3 2) ⟨.dispatch 2, 2, [.post, .post], [], []⟩ ∧
      holders [TaskPc.post, TaskPc.post] ≤ 2 ∧ ((2 : Nat) : Int) ≤ (cfgOk 3 2).concurrency ∧
      (holders [TaskPc.post, TaskPc.post] : Int) ≤ (cfgOk 3 2).concurrency :=
  have hs : Reachable (cfgOk 3 2) ⟨.dispatch 2, 2, [.post, .post], [], []⟩ :=
    reachable_of_runSchedule [.main, .main, .main, .main, .main] (by decide)
  ⟨by decide, hs, holders_le_concurrency (cfgOk 3 2) (by decide) _ hs⟩

/-- C9: for every concurrency (so for concurrency >= 1), in every reachable
state: a goroutine at its send (on any of the three exit paths) is not blocked, sends exactly its own
outcome on one channel and only then stands at its deferred `<-sem`; a
goroutine at its deferred `<-sem` is not blocked and takes one token without
touching the outcome channels; and once the dispatcher has left the second
loop, every goroutine has returned, `total` goroutines were launched, and the
two channels together hold exactly the `total` outcomes, one per request. -/
theorem join_barrier (cfg : Config) (s : State) (hs : Reachable cfg s) :
    (∀ n, s.tasks[n]? = some .report →
      stepTask cfg s n = some
        (match taskOutcome (cfg.transport n) with
         | .success d => { s with results := s.results ++ [d], tasks := s.tasks.set n .release }
         | .failure e => { s with errors := s.errors ++ [e], tasks := s.tasks.set n .release })) ∧
    (∀ n, s.tasks[n]? = some .release →
      0 < s.sem ∧
      stepTask cfg s n = some { s with sem := s.sem - 1, tasks := s.tasks.set n .exited }) ∧
    s.results.length + s.errors.length = reported s.tasks ∧
    s.collected.Perm (sentOutcomes cfg 0 s.tasks) ∧
    (s.pc = .closing ∨ s.pc = .reducing ∨ (∃ r, s.pc = .done r) →
      (∀ t ∈ s.tasks, t = .exited) ∧ (s.tasks.length : Int) = cfg.requests ∧
      ((s.results.length + s.errors.length : Nat) : Int) = cfg.requests ∧
      s.collected.Perm (allOutcomes cfg)) := by
  have hinv := inv_of_reachable hs
  refine ⟨fun n hn => stepTask_report hinv hn,
    fun n hn => ⟨(inv_task_live hinv hn rfl).2.2, stepTask_release hinv hn⟩,
    hinv.outcomes, collected_perm hs, ?_⟩
  intro hpc
  obtain ⟨hall, hlen, hsum, _⟩ := inv_joined hinv hpc
  have hf : 0 ≤ cfg.requests := by
    refine (hinv.flags ?_ ?_).1 <;> rcases hpc with h | h | ⟨r, h⟩ <;> simp [h]
  refine ⟨hall, ?_, ?_, collected_joined hs hpc⟩
  · rw [hlen]; simp only [Config.outCap]; omega
  · rw [hsum]; simp only [Config.outCap]; omega

theorem join_barrier_witness :
    1 ≤ (cfgOk 2 1).concurrency ∧
      Reachable (cfgOk 2 1)
        ⟨.closing, 1, [.exited, .exited], [10000000, 10000000], []⟩ ∧
      ((([10000000, 10000000] : List Int).length + ([] : List String).length : Nat) : Int)
        = (cfgOk 2 1).requests :=
  have hs : Reachable (cfgOk 2 1)
      ⟨.closing, 1, [.exited, .exited], [10000000, 10000000], []⟩ :=
    reachable_of_runSchedule
      [.main, .main, .main, .task 0, .task 0, .task 0, .main, .main, .task 1, .task 1,
       .task 1, .main, .main, .main] (by decide)
  ⟨by decide, hs,
    ((join_barrier (cfgOk 2 1) _ hs).2.2.2.2 (Or.inl rfl)).2.2.1⟩

/-- C7: for total = 0 and concurrency >= 1, no state of the run is a panic,
no goroutine is ever launched, the dispatcher can move in every state until
the report is printed, every move brings the end closer, the report is
reached, and it shows 0 succeeded, 0 failed and no latency or requests/sec
lines; and whenever the succeeded count is 0 the report has no latency lines,
so no division by the count takes place. -/
theorem zero_requests_report (cfg : Config) (h0 : cfg.requests = 0)
    (hc : 1 ≤ cfg.concurrency) :
    (∀ s, Reachable cfg s →
      s.pc ≠ .panicked ∧ s.tasks = [] ∧
      ((∃ r, s.pc = .done r) ∨ ∃ s', step cfg s .main = some s')) ∧
    (∀ s a s', step cfg s a = some s' → movesLeft cfg s' < movesLeft cfg s) ∧
    (∃ s r, Reachable cfg s ∧ s.pc = .done r) ∧
    (∀ s r, Reachable cfg s → s.pc = .done r →
      r = { total := 0, succeeded := 0, failed := 0, totalTime := cfg.totalTime,
            latency := none }) ∧
    (∀ requests totalTime results errors,
      (mkReport requests totalTime results errors).succeeded = 0 →
      (mkReport requests totalTime results errors).latency = none) := by
  have hok : startPanics cfg = false :=
    (startPanics_eq_false_iff cfg).2 ⟨by omega, by omega, by omega, by omega⟩
  have hcap : cfg.outCap = 0 := by simp [Config.outCap, h0]
  have hnil : ∀ s, Reachable cfg s → s.tasks = [] := by
    intro s hs
    have hlen := inv_length_le (inv_of_reachable hs)
    exact List.eq_nil_of_length_eq_zero (by omega)
  refine ⟨?_, fun s a s' h => movesLeft_step h, ?_, ?_, ?_⟩
  · intro s hs
    have hinv := inv_of_reachable hs
    refine ⟨fun hp => ?_, hnil s hs, ?_⟩
    · have := hinv.crashed hp
      simp [hok] at this
    · rcases progress hinv hok hc with hd | ⟨a, s', hstep⟩
      · exact Or.inl hd
      · right
        cases a with
        | main => exact ⟨s', hstep⟩
        | task n =>
          simp only [step, stepTask, hnil s hs] at hstep
          split at hstep <;> simp at hstep
        | handoff n => simp [step, stepHandoff, hnil s hs] at hstep
  · obtain ⟨s, r, hreach, hpc⟩ := can_finish hok hc _ State.init (Nat.le_refl _) (inv_init cfg)
    exact ⟨s, r, Reachable.from .init hreach, hpc⟩
  · intro s r hs hpc
    have hinv := inv_of_reachable hs
    obtain ⟨_, _, hsum, _⟩ := inv_joined hinv (Or.inr (Or.inr ⟨r, hpc⟩))
    have h1 : s.results = [] := List.eq_nil_of_length_eq_zero (by omega)
    have h2 : s.errors = [] := List.eq_nil_of_length_eq_zero (by omega)
    rw [hinv.printed r hpc, h1, h2, h0]
    rfl
  · intro requests totalTime results errors h
    simp only [mkReport] at h ⊢
    simp [h]

theorem zero_requests_report_witness :
    (cfgOk 0 5).requests = 0 ∧ 1 ≤ (cfgOk 0 5).concurrency ∧
      runSchedule (cfgOk 0 5)
        [.main, .main, .main, .main, .main, .main, .main, .main, .main, .main] State.init
        = some ⟨.done ⟨0, 0, 0, 1000000000, none⟩, 5, [], [], []⟩ ∧
      (⟨0, 0, 0, 1000000000, none⟩ : Report) =
        { total := 0, succeeded := 0, failed := 0, totalTime := (cfgOk 0 5).totalTime,
          latency := none } :=
  have hs : Reachable (cfgOk 0 5) ⟨.done ⟨0, 0, 0, 1000000000, none⟩, 5, [], [], []⟩ :=
    reachable_of_runSchedule
      [.main, .main, .main, .main, .main, .main, .main, .main, .main, .main] (by decide)
  ⟨by decide, by decide, by decide,
    (zero_requests_report (cfgOk 0 5) (by decide) (by decide)).2.2.2.1 _ _ hs rfl⟩

/-- C3, as amended: for every concurrency <= 0 and every total, no goroutine
is ever launched and the outcome channels stay empty, so no request is
issued; the run is not rejected by a check of the flags: when a flag is
negative, or the total is too large for the outcome channels to be created,
the first move of the run is a runtime panic at `make(chan ...)` and no report
is printed, and the run panics in no other case; with concurrency 0, total >
0 and channels that can be created, the dispatcher is blocked for good at its
first send on `sem` and no report is printed; a report is printed only when
concurrency = 0 and total = 0, and then it shows zero counts and no latency
lines. -/
theorem nonpositive_concurrency (cfg : Config) (hc : cfg.concurrency ≤ 0) :
    (∀ s, Reachable cfg s →
      s.tasks = [] ∧ s.results = [] ∧ s.errors = [] ∧
      (s.pc = .panicked →
        cfg.requests < 0 ∨ cfg.concurrency < 0 ∨ 2 ^ 64 ≤ 16 * cfg.requests ∨
          (cfg.maxChanBytes : Int) < 16 * cfg.requests) ∧
      (∀ r, s.pc = .done r →
        cfg.concurrency = 0 ∧ cfg.requests = 0 ∧
        r = { total := 0, succeeded := 0, failed := 0, totalTime := cfg.totalTime,
              latency := none })) ∧
    (cfg.requests < 0 ∨ cfg.concurrency < 0 ∨ 2 ^ 64 ≤ 16 * cfg.requests ∨
        (cfg.maxChanBytes : Int) < 16 * cfg.requests →
      step cfg State.init .main = some { State.init with pc := .panicked } ∧
      ∀ s r, Reachable cfg s → s.pc ≠ .done r) ∧
    (cfg.concurrency = 0 → 0 < cfg.requests → 16 * cfg.requests < 2 ^ 64 →
        16 * cfg.requests ≤ cfg.maxChanBytes →
      Reachable cfg { State.init with pc := .dispatch 0 } ∧
      (∀ a, step cfg { State.init with pc := .dispatch 0 } a = none) ∧
      ∀ s r, Reachable cfg s → s.pc ≠ .done r) ∧
    (cfg.concurrency = 0 → cfg.requests = 0 → ∃ s r, Reachable cfg s ∧ s.pc = .done r) := by
  have key : ∀ s, Reachable cfg s →
      s.tasks = [] ∧ s.results = [] ∧ s.errors = [] ∧
      (s.pc = .panicked →
        cfg.requests < 0 ∨ cfg.concurrency < 0 ∨ 2 ^ 64 ≤ 16 * cfg.requests ∨
          (cfg.maxChanBytes : Int) < 16 * cfg.requests) ∧
      (∀ r, s.pc = .done r →
        cfg.concurrency = 0 ∧ cfg.requests = 0 ∧
        r = { total := 0, succeeded := 0, failed := 0, totalTime := cfg.totalTime,
              latency := none }) := by
    intro s hs
    have hinv := inv_of_reachable hs
    have hnil := (no_task_of_reachable hc hs).1
    have hout := hinv.outcomes
    simp only [hnil, reported, List.countP_nil] at hout
    have h1 : s.results = [] := List.eq_nil_of_length_eq_zero (by omega)
    have h2 : s.errors = [] := List.eq_nil_of_length_eq_zero (by omega)
    refine ⟨hnil, h1, h2, fun hp => (startPanics_eq_true_iff cfg).1 (hinv.crashed hp), ?_⟩
    intro r hpc
    have hf := hinv.flags (by simp [hpc]) (by simp [hpc])
    have hlen := hinv.launched
    simp only [hpc, launchedOf, hnil, List.length_nil, Config.outCap] at hlen
    have hr0 : cfg.requests = 0 := by omega
    refine ⟨by omega, hr0, ?_⟩
    rw [hinv.printed r hpc, h1, h2, hr0]
    rfl
  refine ⟨key, ?_, ?_, ?_⟩
  · intro hbad
    have hp : startPanics cfg = true := (startPanics_eq_true_iff cfg).2 hbad
    refine ⟨by simp [step, stepMain, State.init, hp], ?_⟩
    intro s r hs hpc
    rcases reachable_of_startPanics hp hs with rfl | rfl <;> simp [State.init] at hpc
  · intro h0 hpos h64 hfit
    have hok : startPanics cfg = false :=
      (startPanics_eq_false_iff cfg).2 ⟨by omega, by omega, h64, hfit⟩
    refine ⟨?_, ?_, ?_⟩
    · refine Reachable.step .main .init ?_
      simp [step, stepMain, State.init, hok]
    · intro a
      cases a with
      | main => simp [step, stepMain, State.init, hpos, Config.semCap, h0]
      | task n => simp [step, stepTask, State.init, MainPc.ended]
      | handoff n => simp [step, stepHandoff, State.init]
    · intro s r hs hpc
      have := ((key s hs).2.2.2.2 r hpc).2.1
      omega
  · intro h0 hr0
    have hok : startPanics cfg = false :=
      (startPanics_eq_false_iff cfg).2 ⟨by omega, by omega, by omega, by omega⟩
    refine ⟨⟨.done (mkReport cfg.requests cfg.totalTime [] []), 0, [], [], []⟩, _, ?_, rfl⟩
    refine reachable_of_runSchedule [.main, .main, .main, .main, .main] ?_
    simp [runSchedule, step, stepMain, State.init, h0, hr0, hok]

theorem nonpositive_concurrency_witness :
    (cfgOk 3 0).concurrency ≤ 0 ∧
      Reachable (cfgOk 3 0) { State.init with pc := .dispatch 0 } ∧
      (∀ a, step (cfgOk 3 0) { State.init with pc := .dispatch 0 } a = none) ∧
      ∀ s r, Reachable (cfgOk 3 0) s → s.pc ≠ .done r :=
  ⟨by decide,
    (nonpositive_concurrency (cfgOk 3 0) (by decide)).2.2.1 rfl (by decide) (by decide)
      (by decide)⟩

/-- C3 fails as stated: with concurrency 0 and total 0 the run is not
rejected; five moves of the dispatcher print a report with zero counts. -/
theorem concurrency_zero_not_rejected :
    (cfgOk 0 0).concurrency ≤ 0 ∧
      runSchedule (cfgOk 0 0) [.main, .main, .main, .main, .main] State.init =
        some ⟨.done ⟨0, 0, 0, 1000000000, none⟩, 0, [], [], []⟩ ∧
      Reachable (cfgOk 0 0) ⟨.done ⟨0, 0, 0, 1000000000, none⟩, 0, [], [], []⟩ ∧
      ¬ ∀ cfg : Config, cfg.concurrency ≤ 0 →
          ∀ s r, Reachable cfg s → s.pc ≠ .done r := by
  have hs : Reachable (cfgOk 0 0) ⟨.done ⟨0, 0, 0, 1000000000, none⟩, 0, [], [], []⟩ :=
    reachable_of_runSchedule [.main, .main, .main, .main, .main] (by decide)
  exact ⟨by decide, by decide, hs, fun h => h (cfgOk 0 0) (by decide) _ _ hs rfl⟩

/-! ## The claims about one request and about the statistics -/

/-- C4: the report is the same for every permutation of the outcomes: the
same succeeded and failed counts and the same min, max and average latency;
so are the loop variables `total`, `count`, `min`, `max` for every permutation
of the success latencies. -/
theorem reduction_order_independent (requests totalTime : Int) (os₁ os₂ : List Outcome)
    (h : os₁.Perm os₂) :
    aggregate requests totalTime os₁ = aggregate requests totalTime os₂ ∧
      reduceLoop (os₁.filterMap Outcome.latency?) = reduceLoop (os₂.filterMap Outcome.latency?) ∧
      (os₁.filterMap Outcome.cause?).length = (os₂.filterMap Outcome.cause?).length :=
  ⟨aggregate_perm requests totalTime h, reduceLoop_perm (h.filterMap _),
    (h.filterMap _).length_eq⟩

theorem reduction_order_independent_witness :
    [Outcome.success 30, .failure "status 500", .success 10, .success 20].Perm
        [.success 10, .success 20, .success 30, .failure "status 500"] ∧
      aggregate 4 1000 [.success 30, .failure "status 500", .success 10, .success 20] =
        aggregate 4 1000 [.success 10, .success 20, .success 30, .failure "status 500"] :=
  ⟨by decide, (reduction_order_independent 4 1000 _ _ (by decide)).1⟩

/-- C8, as amended: a transport error gives a Failure carrying that error; a
status code N >= 400 gives a Failure whose text is "status N" (so "status
500" for 500); any other response gives a Success carrying the elapsed time;
so the outcome is a Failure exactly when there was a transport error or the
status code is >= 400. -/
theorem taskOutcome_spec (tr : TransportResult) :
    (∀ msg, tr = .err msg → taskOutcome tr = .failure msg) ∧
    (∀ code elapsed, tr = .resp code elapsed → 400 ≤ code →
      taskOutcome tr = .failure ("status " ++ toString code)) ∧
    (∀ elapsed, tr = .resp 500 elapsed → taskOutcome tr = .failure "status 500") ∧
    (∀ code elapsed, tr = .resp code elapsed → code < 400 →
      taskOutcome tr = .success elapsed) ∧
    ((taskOutcome tr).isFailure = true ↔
      (∃ msg, tr = .err msg) ∨ ∃ code elapsed, tr = .resp code elapsed ∧ 400 ≤ code) := by
  refine ⟨?_, ?_, ?_, ?_, ?_⟩
  · rintro msg rfl; rfl
  · rintro code elapsed rfl h
    simp [taskOutcome, h, statusError]
  · rintro elapsed rfl
    have h : (500 : Int) ≥ 400 := by decide
    have e : statusError 500 = "status 500" := by decide
    simp only [taskOutcome, h, if_true, e]
  · rintro code elapsed rfl h
    have : ¬ code ≥ 400 := by omega
    simp [taskOutcome, this]
  · cases tr with
    | err msg => simp [taskOutcome, Outcome.isFailure]
    | resp code elapsed =>
      by_cases h : code ≥ 400
      · simp [taskOutcome, h, Outcome.isFailure]
      · simp only [taskOutcome, h, if_false, Outcome.isFailure]
        simp
        omega

/-- C8 fails as stated: for status 500 the cause text is "status 500", not
"http status 500". -/
theorem status_text_not_http :
    taskOutcome (.resp 500 10000000) = .failure "status 500" ∧
      taskOutcome (.resp 500 10000000) ≠ .failure "http status 500" := by
  decide

/-- C10: for a non-empty list of non-negative success latencies whose sum
fits in 64 bits, the report has latency lines, the average is the truncated
quotient of the sum by the count, and min <= average <= max, with min
started at one hour and max at 0. -/
theorem min_le_avg_le_max (requests totalTime : Int) (results : List Int)
    (errors : List String) (hne : results ≠ []) (hpos : ∀ d ∈ results, 0 ≤ d)
    (hsum : results.sum < 2 ^ 63) :
    ∃ L, (mkReport requests totalTime results errors).latency = some L ∧
      L.min = (results.foldl accStep Acc.init).min ∧
      L.max = (results.foldl accStep Acc.init).max ∧
      L.avg = Int.tdiv results.sum (results.length : Int) ∧
      L.min ≤ L.avg ∧ L.avg ≤ L.max := by
  have hlen : 0 < results.length := List.length_pos.2 hne
  have hlen' : (0 : Int) < (results.length : Int) := by exact_mod_cast hlen
  have h0 : 0 ≤ results.sum := List.sum_nonneg hpos
  have hw : wrap64 results.sum = results.sum := wrap64_of_inRange (by omega) hsum
  refine ⟨_, mkReport_latency requests totalTime results errors hne, rfl, rfl, ?_, ?_, ?_⟩
  · simp only [hw]
  · simp only [hw, Int.tdiv_eq_ediv h0 (le_of_lt hlen')]
    apply Int.le_ediv_of_mul_le hlen'
    have := length_mul_le_sum results _ (reduceLoop_min_le results)
    rw [mul_comm]
    exact this
  · simp only [hw, Int.tdiv_eq_ediv h0 (le_of_lt hlen')]
    apply Int.ediv_le_of_le_mul hlen'
    have := sum_le_length_mul results _ (reduceLoop_le_max results)
    rw [mul_comm]
    exact this

theorem min_le_avg_le_max_witness :
    ([10, 25, 40] : List Int) ≠ [] ∧ (∀ d ∈ ([10, 25, 40] : List Int), 0 ≤ d) ∧
      ([10, 25, 40] : List Int).sum < 2 ^ 63 ∧
      ∃ L, (mkReport 3 1000 [10, 25, 40] []).latency = some L ∧
        L.min = (([10, 25, 40] : List Int).foldl accStep Acc.init).min ∧
        L.max = (([10, 25, 40] : List Int).foldl accStep Acc.init).max ∧
        L.avg = Int.tdiv ([10, 25, 40] : List Int).sum 3 ∧
        L.min ≤ L.avg ∧ L.avg ≤ L.max :=
  ⟨by decide, by decide, by decide,
    min_le_avg_le_max 3 1000 [10, 25, 40] [] (by decide) (by decide) (by decide)⟩

/-- C5 at its failing input: a single success of two hours. The reported
min is one hour, the start value of `min`, which is not a latency of the
collection, while the smallest latency is two hours (max and avg are two
hours, as the claim says); and a run of one request answered 200 after two
hours prints that report in every interleaving. -/
theorem min_capped_at_one_hour :
    (mkReport 1 1000000000 [2 * hour] []).latency
        = some ⟨2 * hour, hour, 2 * hour, 1, 1000000000⟩ ∧
      hour ∉ [2 * hour] ∧ (∀ d ∈ [2 * hour], 2 * hour ≤ d) ∧ hour ≠ 2 * hour ∧
      ∀ s r, Reachable cfgSlow s → s.pc = .done r →
        r = { total := 1, succeeded := 1, failed := 0, totalTime := 1000000000,
              latency := some { avg := 2 * hour, min := hour, max := 2 * hour,
                                rpsCount := 1, rpsTime := 1000000000 } } := by
  refine ⟨by decide, by decide, by decide, by decide, ?_⟩
  intro s r hs hpc
  rw [(final_report hs hpc).1]
  decide

/-- C6, as amended: for every list of outcomes, the average is the same for
any other run with the same success latencies, whatever its failures and its
number of requests, so adding or removing failures does not change it, and
the succeeded count is the number of successes; with at least one Success the
average is the 64-bit sum of the success latencies divided (truncating) by
the number of successes, not by the number of requests, and when the sum of
the success latencies fits in 64 bits it is that sum divided by the number of
successes. -/
theorem avg_over_successes (requests totalTime : Int) (os : List Outcome) :
    (∀ requests' totalTime' os',
      os'.filterMap Outcome.latency? = os.filterMap Outcome.latency? →
      (aggregate requests' totalTime' os').latency.map (fun L => L.avg) =
        (aggregate requests totalTime os).latency.map (fun L => L.avg)) ∧
    (∀ e, (aggregate requests totalTime (.failure e :: os)).latency.map (fun L => L.avg) =
      (aggregate requests totalTime os).latency.map (fun L => L.avg)) ∧
    (aggregate requests totalTime os).succeeded = (os.filterMap Outcome.latency?).length ∧
    (aggregate requests totalTime os).failed = (os.filterMap Outcome.cause?).length ∧
    ((∃ d, Outcome.success d ∈ os) →
      ∃ L, (aggregate requests totalTime os).latency = some L ∧
        L.avg = Int.tdiv (wrap64 (os.filterMap Outcome.latency?).sum)
          ((os.filterMap Outcome.latency?).length : Int) ∧
        (-2 ^ 63 ≤ (os.filterMap Outcome.latency?).sum →
          (os.filterMap Outcome.latency?).sum < 2 ^ 63 →
          L.avg = Int.tdiv (os.filterMap Outcome.latency?).sum
            ((os.filterMap Outcome.latency?).length : Int))) := by
  have hsame : ∀ requests' totalTime' os',
      os'.filterMap Outcome.latency? = os.filterMap Outcome.latency? →
      (aggregate requests' totalTime' os').latency.map (fun L => L.avg) =
        (aggregate requests totalTime os).latency.map (fun L => L.avg) := by
    intro requests' totalTime' os' h
    rw [aggregate_latency, aggregate_latency, h, mkReport_avg, mkReport_avg]
  refine ⟨hsame, fun e => hsame _ _ _ (by simp [Outcome.latency?]), ?_, ?_, ?_⟩
  · simp only [aggregate, deliverAll_eq, mkReport, reduceLoop_count]
  · simp only [aggregate, deliverAll_eq, mkReport]
  · rintro ⟨d, hd⟩
    have hne : os.filterMap Outcome.latency? ≠ [] :=
      List.ne_nil_of_mem (latency_mem_filterMap hd)
    have hlat := (aggregate_latency requests totalTime os).trans
      (mkReport_latency requests totalTime _ [] hne)
    refine ⟨_, hlat, rfl, ?_⟩
    intro hlo hhi
    show Int.tdiv (wrap64 (os.filterMap Outcome.latency?).sum) _ = _
    rw [wrap64_of_inRange hlo hhi]

theorem avg_over_successes_witness :
    (∃ d, Outcome.success d ∈
        [Outcome.success 10, .failure "status 500", .success 25, .failure "timeout"]) ∧
      ∃ L, (aggregate 4 1000
          [.success 10, .failure "status 500", .success 25, .failure "timeout"]).latency
            = some L ∧
        L.avg = Int.tdiv ([10, 25] : List Int).sum 2 := by
  obtain ⟨L, hL, _, h⟩ :=
    (avg_over_successes 4 1000
      [.success 10, .failure "status 500", .success 25, .failure "timeout"]).2.2.2.2
      ⟨10, by decide⟩
  exact ⟨⟨10, by decide⟩, L, hL, h (by decide) (by decide)⟩

/-- C6 fails as stated: for two successes of 2^62 ns each, the sum of the
latencies is 2^63 and the sum divided by the count is 2^62, but the 64-bit
accumulator wraps to -2^63 and the reported average is -2^62. -/
theorem avg_wraps_on_overflow :
    (aggregate 2 1000 [.success 4611686018427387904, .success 4611686018427387904]).latency
        = some ⟨-4611686018427387904, hour, 4611686018427387904, 2, 1000⟩ ∧
      Int.tdiv (4611686018427387904 + 4611686018427387904) 2 = 4611686018427387904 := by
  decide

end LoadTest
